import Mathlib

/-!
# LRU cache (`lru-cache/lru_cache.cpp`) and Bloom filter (`bloom-filter/bloom_filter.cpp`):
a shallow embedding and its properties

The C++ class keeps an `unordered_map<int, Node*>` (the index) and a doubly linked list of
heap-allocated nodes between two sentinel nodes.  The embedding keeps the pointers: the heap is
an explicit store of cells addressed by natural numbers, `nullptr` is `none`, and every
dereference of a null or deleted pointer makes the operation return `none` (undefined behaviour in
the source).  The theorems below show, among other things, that this never happens in a state
reached from the constructor.

The Bloom filter is a vector of bits probed at `k` positions per item; `std::hash<string>` is a
parameter of the embedding, and an access outside the vector makes the operation return `none`.
-/

namespace LRU

/-! ## The heap -/

/-- A `Node*`: `none` is `nullptr`, `some a` is the address of a heap cell. -/
abbrev Ptr := Option Nat

/-- The `struct Node` of the source. -/
structure Node where
  key : Int
  value : Int
  prev : Ptr
  next : Ptr
deriving DecidableEq, Repr

/-- The store of nodes: cell `a` holds `some n` while it is allocated and `none` after `delete`.
`new` hands out the first address that has never been used. -/
abbrev Heap := List (Option Node)

/-- Dereference a pointer; `none` for `nullptr`, an unallocated or a deleted cell. -/
def readNode (h : Heap) (p : Ptr) : Option Node :=
  match p with
  | none => none
  | some a => h.getD a none

/-- Overwrite the cell a pointer refers to; fails where `readNode` fails. -/
def writeNode (h : Heap) (p : Ptr) (n : Node) : Option Heap :=
  match p with
  | none => none
  | some a =>
    match h.getD a none with
    | none => none
    | some _ => some (h.set a (some n))

/-- The expression `new Node(k, v)`: a fresh cell with both links null. -/
def allocNode (h : Heap) (k v : Int) : Ptr × Heap :=
  (some h.length, h ++ [some ⟨k, v, none, none⟩])

/-- The statement `delete p` for a non-null `p`. -/
def freeNode (h : Heap) (p : Ptr) : Option Heap :=
  match p with
  | none => none
  | some a =>
    match h.getD a none with
    | none => none
    | some _ => some (h.set a none)

/-- The expression `p->key`. -/
def getKey (h : Heap) (p : Ptr) : Option Int := (readNode h p).map Node.key

/-- The expression `p->value`. -/
def getValue (h : Heap) (p : Ptr) : Option Int := (readNode h p).map Node.value

/-- The expression `p->prev`. -/
def getPrev (h : Heap) (p : Ptr) : Option Ptr := (readNode h p).map Node.prev

/-- The expression `p->next`. -/
def getNext (h : Heap) (p : Ptr) : Option Ptr := (readNode h p).map Node.next

/-- The assignment `p->value = v`. -/
def setValue (h : Heap) (p : Ptr) (v : Int) : Option Heap :=
  (readNode h p).bind fun n => writeNode h p { n with value := v }

/-- The assignment `p->prev = q`. -/
def setPrev (h : Heap) (p q : Ptr) : Option Heap :=
  (readNode h p).bind fun n => writeNode h p { n with prev := q }

/-- The assignment `p->next = q`. -/
def setNext (h : Heap) (p q : Ptr) : Option Heap :=
  (readNode h p).bind fun n => writeNode h p { n with next := q }

/-! ## The index (`std::unordered_map<int, Node*>`) -/

/-- The index as an association list; the order of its entries is never observed. -/
abbrev Index := List (Int × Ptr)

/-- The call `cache.find(key)`: `none` stands for `cache.end()`. -/
def mapFind : Index → Int → Option Ptr
  | [], _ => none
  | (k, p) :: m, key => if k = key then some p else mapFind m key

/-- The call `cache.erase(key)`. -/
def mapErase (m : Index) (key : Int) : Index := m.filter fun e => decide (e.1 ≠ key)

/-- The assignment `cache[key] = p`: overwrite the entry of `key`, or add one. -/
def mapInsert : Index → Int → Ptr → Index
  | [], key, p => [(key, p)]
  | (k, q) :: m, key, p => if k = key then (k, p) :: m else (k, q) :: mapInsert m key p

/-- The conversion `(int)n` of a `size_t` to a 32-bit `int`. -/
def toInt32 (n : Nat) : Int := ((n : Int) + 2147483648) % 4294967296 - 2147483648

/-! ## The class -/

/-- The data members of `LRUCache` (the mutex apart) together with the heap they point into. -/
structure LRUCache where
  capacity : Int
  cache : Index
  head : Ptr
  tail : Ptr
  heap : Heap
deriving DecidableEq, Repr

/-- The method `removeNode`. -/
def removeNode (h : Heap) (node : Ptr) : Option Heap := do
  -- node->prev->next = node->next;
  let p ← getPrev h node
  let n ← getNext h node
  let h1 ← setNext h p n
  -- node->next->prev = node->prev;
  let n1 ← getNext h1 node
  let p1 ← getPrev h1 node
  setPrev h1 n1 p1

/-- The method `addToFront`; `head` is the data member. -/
def addToFront (h : Heap) (head node : Ptr) : Option Heap := do
  -- node->next = head->next;
  let hn ← getNext h head
  let h1 ← setNext h node hn
  -- node->prev = head;
  let h2 ← setPrev h1 node head
  -- head->next->prev = node;
  let hn2 ← getNext h2 head
  let h3 ← setPrev h2 hn2 node
  -- head->next = node;
  setNext h3 head node

/-- The method `moveToFront`. -/
def moveToFront (h : Heap) (head node : Ptr) : Option Heap := do
  let h1 ← removeNode h node
  addToFront h1 head node

/-- The method `popTail`: the returned pointer is null when the list is empty. -/
def popTail (h : Heap) (head tail : Ptr) : Option (Ptr × Heap) := do
  let node ← getPrev h tail
  if node = head then pure (none, h)
  else do
    let h1 ← removeNode h node
    pure (node, h1)

/-- The constructor `LRUCache(int cap)`, run on an empty heap. -/
def init (cap : Int) : Option LRUCache := do
  let (head, h1) := allocNode [] (-1) (-1)
  let (tail, h2) := allocNode h1 (-1) (-1)
  let h3 ← setNext h2 head tail
  let h4 ← setPrev h3 tail head
  pure { capacity := cap, cache := [], head := head, tail := tail, heap := h4 }

/-- The method `get`: the result and the state after the call. -/
def get (s : LRUCache) (key : Int) : Option (Int × LRUCache) :=
  match mapFind s.cache key with
  | none => some (-1, s)
  | some node => do
    let h1 ← moveToFront s.heap s.head node
    let v ← getValue h1 node
    pure (v, { s with heap := h1 })

/-- The eviction step of `put`: the block guarded by `(int)cache.size() == capacity`. -/
def evictIfFull (s : LRUCache) : Option LRUCache :=
  if toInt32 s.cache.length = s.capacity then do
    let (lru, h1) ← popTail s.heap s.head s.tail
    match lru with
    | none => pure { s with heap := h1 }
    | some a => do
      let k ← getKey h1 (some a)
      let h2 ← freeNode h1 (some a)
      pure { s with cache := mapErase s.cache k, heap := h2 }
  else pure s

/-- The method `put`. -/
def put (s : LRUCache) (key value : Int) : Option LRUCache :=
  match mapFind s.cache key with
  | some node => do
    let h1 ← setValue s.heap node value
    let h2 ← moveToFront h1 s.head node
    pure { s with heap := h2 }
  | none => do
    let s1 ← evictIfFull s
    let (newNode, h1) := allocNode s1.heap key value
    let c1 := mapInsert s1.cache key newNode
    let h2 ← addToFront h1 s1.head newNode
    pure { s1 with cache := c1, heap := h2 }

/-- A node of the list as an observer sees it: its address and its payload. -/
structure Cell where
  addr : Nat
  key : Int
  value : Int
deriving DecidableEq, Repr

/-- The loop of `debugPrint`: the nodes from `cur` up to the tail sentinel; `fuel` bounds the
number of iterations. -/
def walk (h : Heap) (tail : Ptr) : Nat → Ptr → Option (List Cell)
  | 0, _ => none
  | fuel + 1, cur =>
    if cur = tail then some []
    else
      match cur with
      | none => none
      | some a => do
        let n ← readNode h (some a)
        let rest ← walk h tail fuel n.next
        pure (⟨a, n.key, n.value⟩ :: rest)

/-- The nodes strictly between the sentinels, most recently used first. -/
def liveNodes (s : LRUCache) : Option (List Cell) := do
  let first ← getNext s.heap s.head
  walk s.heap s.tail s.heap.length first

/-- The method `debugPrint`: the (key, value) pairs it prints, from most to least recently
used. -/
def debugPrint (s : LRUCache) : Option (List (Int × Int)) :=
  (liveNodes s).map fun l => l.map fun c => (c.key, c.value)

/-- The number of cached entries, `cache.size()`. -/
def count (s : LRUCache) : Nat := s.cache.length

/-- Whether `key` is in the index. -/
def cached (s : LRUCache) (key : Int) : Bool := (mapFind s.cache key).isSome

/-- An operation of the public interface. -/
inductive Op where
  | get (key : Int)
  | put (key value : Int)
deriving DecidableEq, Repr

/-- One call: the state after it and what it returned (`put` returns nothing). -/
def step (s : LRUCache) : Op → Option (LRUCache × Option Int)
  | .get k => (get s k).map fun r => (r.2, some r.1)
  | .put k v => (put s k v).map fun s1 => (s1, none)

/-- A sequence of calls, one after the other. -/
def runFrom (s : LRUCache) : List Op → Option LRUCache
  | [] => some s
  | op :: ops => (step s op).bind fun r => runFrom r.1 ops

/-- Construct a cache of capacity `cap`, then make the calls `ops`. -/
def run (cap : Int) (ops : List Op) : Option LRUCache :=
  (init cap).bind fun s => runFrom s ops

/-- The value the node of `key` holds, if `key` is in the index. -/
def stored (s : LRUCache) (key : Int) : Option Int :=
  (mapFind s.cache key).bind fun p => getValue s.heap p

/-- The key of the node right after the head sentinel, if that node is not the tail sentinel. -/
def frontKey (s : LRUCache) : Option Int := do
  let first ← getNext s.heap s.head
  if first = s.tail then none else getKey s.heap first

/-- Whether the call `op`, made in state `s`, touches `key`: a `put` of it, or a `get` that
finds it. -/
def touches (s : LRUCache) (op : Op) (key : Int) : Bool :=
  match op with
  | .get k => decide (k = key) && cached s key
  | .put k _ => decide (k = key)

/-- Whether call number `t` of `ops` (counted from 0), made on a cache of capacity `cap`,
touches `key`. -/
def touchAt (cap : Int) (ops : List Op) (t : Nat) (key : Int) : Bool :=
  match ops.get? t, run cap (ops.take t) with
  | some op, some s => touches s op key
  | _, _ => false

/-- Call number `t` is the most recent touch of `key` in the history `ops`. -/
def IsLastTouch (cap : Int) (ops : List Op) (key : Int) (t : Nat) : Prop :=
  touchAt cap ops t key = true ∧ ∀ u, t < u → u < ops.length → touchAt cap ops u key = false

/-- The value of the most recent `put` of `key` in the history `ops`. -/
def lastPut : List Op → Int → Option Int
  | [], _ => none
  | .get _ :: ops, key => lastPut ops key
  | .put k v :: ops, key =>
    match lastPut ops key with
    | some w => some w
    | none => if k = key then some v else none

/-- Whether, while the calls `ops` are made from state `s`, some call touches `key` or removes
it from the cache. -/
def touchedOrEvicted : LRUCache → List Op → Int → Bool
  | _, [], _ => false
  | s, op :: ops, key =>
    touches s op key ||
      match step s op with
      | none => false
      | some r => (cached s key && !cached r.1 key) || touchedOrEvicted r.1 ops key

/-! ## The invariant and the list model used in the proofs -/

/-- The heap after overwriting cell `a` with `n`. -/
def upd (h : Heap) (a : Nat) (n : Node) : Heap := h.set a (some n)

/-- The address of the first cell of `cs`, or `d` when there is none. -/
def firstPtr (cs : List Cell) (d : Ptr) : Ptr :=
  match cs with
  | [] => d
  | c :: _ => some c.addr

/-- The address of the last cell of `cs`, or `d` when there is none. -/
def lastPtr : List Cell → Ptr → Ptr
  | [], d => d
  | c :: cs, _ => lastPtr cs (some c.addr)

/-- The cells `cs` lie in the heap as a doubly linked segment: each one links to its neighbours,
the first one back to `prev` and the last one on to `nxt`. -/
def Seg (h : Heap) : Ptr → List Cell → Ptr → Prop
  | _, [], _ => True
  | prev, c :: cs, nxt =>
    readNode h (some c.addr) = some ⟨c.key, c.value, prev, firstPtr cs nxt⟩ ∧
      Seg h (some c.addr) cs nxt

/-- The head sentinel: the constructor allocates it first. -/
def headCell : Cell := ⟨0, -1, -1⟩

/-- The tail sentinel: the constructor allocates it second. -/
def tailCell : Cell := ⟨1, -1, -1⟩

/-- The state `s` holds exactly the cells `live`, most recently used first: the list from the
head sentinel to the tail sentinel is well linked and free of repetition, and the index maps
each key to the cell that holds it. -/
structure Rep (s : LRUCache) (live : List Cell) : Prop where
  head_eq : s.head = some 0
  tail_eq : s.tail = some 1
  seg : Seg s.heap none (headCell :: (live ++ [tailCell])) none
  nodup_addr : ((headCell :: (live ++ [tailCell])).map Cell.addr).Nodup
  nodup_key : (live.map Cell.key).Nodup
  find : ∀ k p, mapFind s.cache k = some p ↔ ∃ c ∈ live, c.key = k ∧ p = some c.addr
  nodup_idx : (s.cache.map Prod.fst).Nodup
  len : s.cache.length = live.length

/-- The payload of a cell. -/
def Cell.kv (c : Cell) : Int × Int := (c.key, c.value)

/-- The list model: the value paired with `k` in a list of (key, value) pairs. -/
def mLookup : List (Int × Int) → Int → Option Int
  | [], _ => none
  | (j, v) :: l, k => if j = k then some v else mLookup l k

/-- The list model: drop the pairs of key `k`. -/
def mRemove (l : List (Int × Int)) (k : Int) : List (Int × Int) :=
  l.filter fun e => decide (e.1 ≠ k)

/-- The list model of `get`: the result and the list after the call. -/
def mGet (l : List (Int × Int)) (k : Int) : Int × List (Int × Int) :=
  match mLookup l k with
  | none => (-1, l)
  | some v => (v, (k, v) :: mRemove l k)

/-- The list model of `put`. -/
def mPut (cap : Int) (l : List (Int × Int)) (k v : Int) : List (Int × Int) :=
  match mLookup l k with
  | some _ => (k, v) :: mRemove l k
  | none => (k, v) :: (if toInt32 l.length = cap then l.dropLast else l)

/-- The list model of one call. -/
def mStep (cap : Int) (l : List (Int × Int)) : Op → List (Int × Int)
  | .get k => (mGet l k).2
  | .put k v => mPut cap l k v

/-- The list model of a history of calls on a new cache. -/
def mRun (cap : Int) (ops : List Op) : List (Int × Int) := ops.foldl (mStep cap) []

/-- The state `s` represents the list `l` of (key, value) pairs. -/
def Abs (s : LRUCache) (l : List (Int × Int)) : Prop :=
  ∃ live, Rep s live ∧ live.map Cell.kv = l

/-- The keys `keys`, in this order, are strictly ordered by the time of their last touch in
`ops`, the most recent first, and each of them has been touched. -/
def Recency (cap : Int) (ops : List Op) (keys : List Int) : Prop :=
  (∀ k ∈ keys, ∃ t, IsLastTouch cap ops k t) ∧
    keys.Pairwise fun a b => ∀ ta tb, IsLastTouch cap ops a ta → IsLastTouch cap ops b tb → tb < ta

/-- The state of a cache of capacity 2 after `put(1,10)`, `put(2,20)`. -/
def demoTwo : LRUCache :=
  { capacity := 2
    cache := [(1, some 2), (2, some 3)]
    head := some 0
    tail := some 1
    heap := [some ⟨-1, -1, none, some 3⟩, some ⟨-1, -1, some 2, none⟩,
      some ⟨1, 10, some 3, some 1⟩, some ⟨2, 20, some 0, some 2⟩] }

/-- The state of a cache of capacity 2 after `put(1,10)`, `put(2,20)`, `get(1)`. -/
def demoFull : LRUCache :=
  { capacity := 2
    cache := [(1, some 2), (2, some 3)]
    head := some 0
    tail := some 1
    heap := [some ⟨-1, -1, none, some 2⟩, some ⟨-1, -1, some 3, none⟩,
      some ⟨1, 10, some 0, some 3⟩, some ⟨2, 20, some 2, some 1⟩] }

/-- The pointer reached from `p` by following `next` links `n` times. -/
def follow (h : Heap) : Nat → Ptr → Option Ptr
  | 0, p => some p
  | n + 1, p => (getNext h p).bind fun q => follow h n q

/-- The list between a head sentinel `hd` and a tail sentinel `tl` is well formed and holds the
cells `live` in this order: from `hd` through `live` to `tl` every cell is allocated, links
forward to the next one and back to the previous one (null before `hd` and after `tl`), and no
address occurs twice. -/
def WellLinked (h : Heap) (hd tl : Cell) (live : List Cell) : Prop :=
  Seg h none (hd :: (live ++ [tl])) none ∧ ((hd :: (live ++ [tl])).map Cell.addr).Nodup

/-- The nodes met on the way from `head->next` to `tail`, as `debugPrint` walks them. -/
def chain (h : Heap) (head tail : Ptr) : Option (List Cell) :=
  (getNext h head).bind fun first => walk h tail h.length first

/-- A sequence of calls, one after the other: what each call returned, and the final state. -/
def runTrace (s : LRUCache) : List Op → Option (List (Option Int) × LRUCache)
  | [] => some ([], s)
  | op :: ops =>
    (step s op).bind fun r => (runTrace r.1 ops).map fun t => (r.2 :: t.1, t.2)

/-- The reference model, in the words of the specification: the state is a list of (key, value)
pairs, most recently used first; `get(k)` moves the pair of `k` to the front and returns its
value, or returns -1 and changes nothing if `k` is absent. -/
def specGet (l : List (Int × Int)) (k : Int) : Int × List (Int × Int) :=
  match l.find? fun e => e.1 == k with
  | some e => (e.2, e :: l.filter fun d => d.1 != k)
  | none => (-1, l)

/-- The reference model, in the words of the specification: `put(k, v)` replaces and moves to
the front the pair of `k` if present, and otherwise drops the last pair when the length equals
the capacity and then prepends `(k, v)`. -/
def specPut (cap : Int) (l : List (Int × Int)) (k v : Int) : List (Int × Int) :=
  if k ∈ l.map Prod.fst then (k, v) :: l.filter fun d => d.1 != k
  else (k, v) :: (if (l.length : Int) = cap then l.dropLast else l)

/-- The reference model: one call, the list after it and what it returned. -/
def specStep (cap : Int) (l : List (Int × Int)) : Op → List (Int × Int) × Option Int
  | .get k => ((specGet l k).2, some (specGet l k).1)
  | .put k v => (specPut cap l k v, none)

/-- The reference model: a sequence of calls, what each returned and the final list. -/
def specTrace (cap : Int) : List (Int × Int) → List Op → List (Option Int) × List (Int × Int)
  | l, [] => ([], l)
  | l, op :: ops =>
    ((specStep cap l op).2 :: (specTrace cap (specStep cap l op).1 ops).1,
      (specTrace cap (specStep cap l op).1 ops).2)

/-- The keys of the `put` calls of a history, in order, with repetitions. -/
def putKeys : List Op → List Int
  | [] => []
  | .get _ :: ops => putKeys ops
  | .put k _ :: ops => k :: putKeys ops

/-- The history that puts the keys -1, 0, 1, ..., n - 2, in this order, each with value 0. -/
def fillOps (n : Nat) : List Op := (List.range n).map fun (i : Nat) => Op.put ((i : Int) - 1) 0

end LRU

/-! ## The Bloom filter (`bloom-filter/bloom_filter.cpp`) -/

namespace Bloom

/-- The data members of `BloomFilter`. -/
structure BloomFilter where
  bitArray : List Bool
  size : Int
  k : Int
deriving DecidableEq, Repr

/-- The conversion of an `int` to a 64-bit `size_t`. -/
def toSizeT (z : Int) : Nat := (z % 18446744073709551616).toNat

/-- The method `hash`: `h(item + to_string(seed)) % size`, computed in `size_t`. `H` stands for
`std::hash<string>`; the result is `none` for the division by zero. -/
def hash (H : String → Nat) (bf : BloomFilter) (item : String) (seed : Int) : Option Nat :=
  if toSizeT bf.size = 0 then none
  else some (H (item ++ toString seed) % toSizeT bf.size)

/-- The constructor `BloomFilter(int m, int k)`: `resize(m, false)` throws for a negative `m`,
which converts to a size above `max_size()`. -/
def init (m k : Int) : Option BloomFilter :=
  if m < 0 then none else some { bitArray := List.replicate m.toNat false, size := m, k := k }

/-- The assignment `bitArray[pos] = true` with an `int` index; `none` out of bounds. -/
def setBit (bits : List Bool) (pos : Int) : Option (List Bool) :=
  if toSizeT pos < bits.length then some (bits.set (toSizeT pos) true) else none

/-- The expression `bitArray[pos]` with an `int` index; `none` out of bounds. -/
def getBit (bits : List Bool) (pos : Int) : Option Bool := bits.get? (toSizeT pos)

/-- The loop of `insert`, `for (int i = 0; i < k; i++)`, with `n` iterations left and the
counter at `i`. -/
def insertFrom (H : String → Nat) (item : String) : Nat → Int → BloomFilter → Option BloomFilter
  | 0, _, bf => some bf
  | n + 1, i, bf => do
    -- int pos = hash(item, i);
    let p ← hash H bf item i
    -- bitArray[pos] = true;
    let bits ← setBit bf.bitArray (LRU.toInt32 p)
    insertFrom H item n (i + 1) { bf with bitArray := bits }

/-- The method `insert`. -/
def insert (H : String → Nat) (bf : BloomFilter) (item : String) : Option BloomFilter :=
  insertFrom H item bf.k.toNat 0 bf

/-- The loop of `possiblyContains`, with `n` iterations left and the counter at `i`. -/
def containsFrom (H : String → Nat) (bf : BloomFilter) (item : String) : Nat → Int → Option Bool
  | 0, _ => some true
  | n + 1, i => do
    -- int pos = hash(item, i);
    let p ← hash H bf item i
    -- if (!bitArray[pos]) return false;
    let b ← getBit bf.bitArray (LRU.toInt32 p)
    if b then containsFrom H bf item n (i + 1) else some false

/-- The method `possiblyContains`. -/
def possiblyContains (H : String → Nat) (bf : BloomFilter) (item : String) : Option Bool :=
  containsFrom H bf item bf.k.toNat 0

/-- A sequence of `insert` calls. -/
def insertAll (H : String → Nat) (bf : BloomFilter) : List String → Option BloomFilter
  | [] => some bf
  | x :: xs => (insert H bf x).bind fun bf1 => insertAll H bf1 xs

/-- A filter as the constructor makes it for `1 ≤ m`: as many bits as `size` says. -/
def Good (bf : BloomFilter) : Prop :=
  1 ≤ bf.size ∧ bf.size ≤ 2147483647 ∧ bf.bitArray.length = bf.size.toNat

/-- The position probe number `i` of `item` maps to. -/
def pos (H : String → Nat) (bf : BloomFilter) (item : String) (i : Int) : Nat :=
  H (item ++ toString i) % bf.size.toNat

/-- A hash function for examples: the length of the string. -/
def lengthHash (s : String) : Nat := s.length

end Bloom

namespace LRU

/-! ## The heap laws -/

@[simp] theorem length_upd (h : Heap) (a : Nat) (n : Node) : (upd h a n).length = h.length := by
  simp [upd]

theorem readNode_lt {h : Heap} {a : Nat} {n : Node} (hr : readNode h (some a) = some n) :
    a < h.length := by
  by_contra hlt
  simp [readNode, List.getD_eq_getElem?_getD, List.getElem?_eq_none (not_lt.mp hlt)] at hr

theorem readNode_set (h : Heap) (a b : Nat) (x : Option Node) (ha : a < h.length) :
    readNode (h.set a x) (some b) = if b = a then x else readNode h (some b) := by
  simp only [readNode, List.getD_eq_getElem?_getD, List.getElem?_set]
  by_cases hb : b = a
  · subst hb; simp [ha]
  · have : ¬ a = b := fun e => hb e.symm
    simp [hb, this]

theorem readNode_upd {h : Heap} {a : Nat} {m : Node} (n : Node) (b : Nat)
    (hr : readNode h (some a) = some m) :
    readNode (upd h a n) (some b) = if b = a then some n else readNode h (some b) :=
  readNode_set h a b (some n) (readNode_lt hr)

theorem readNode_upd_lt (h : Heap) (a : Nat) (n : Node) (b : Nat) (ha : a < h.length) :
    readNode (upd h a n) (some b) = if b = a then some n else readNode h (some b) :=
  readNode_set h a b (some n) ha

theorem writeNode_eq {h : Heap} {a : Nat} {m : Node} (n : Node)
    (hr : readNode h (some a) = some m) : writeNode h (some a) n = some (upd h a n) := by
  simp only [readNode] at hr
  simp only [writeNode, hr, upd]

theorem setNext_eq {h : Heap} {a : Nat} {m : Node} (q : Ptr)
    (hr : readNode h (some a) = some m) :
    setNext h (some a) q = some (upd h a { m with next := q }) := by
  simp [setNext, hr, writeNode_eq _ hr]

theorem setPrev_eq {h : Heap} {a : Nat} {m : Node} (q : Ptr)
    (hr : readNode h (some a) = some m) :
    setPrev h (some a) q = some (upd h a { m with prev := q }) := by
  simp [setPrev, hr, writeNode_eq _ hr]

theorem setValue_eq {h : Heap} {a : Nat} {m : Node} (v : Int)
    (hr : readNode h (some a) = some m) :
    setValue h (some a) v = some (upd h a { m with value := v }) := by
  simp [setValue, hr, writeNode_eq _ hr]

theorem removeNode_eq {h : Heap} {x p n : Nat} {nx np nn : Node}
    (hx : readNode h (some x) = some nx) (hp : readNode h (some p) = some np)
    (hn : readNode h (some n) = some nn) (hxp : nx.prev = some p) (hxn : nx.next = some n)
    (hne : x ≠ p) (hnp : n ≠ p) :
    removeNode h (some x) =
      some (upd (upd h p { np with next := some n }) n { nn with prev := some p }) := by
  have hx1 : readNode (upd h p { np with next := some n }) (some x) = some nx := by
    rw [readNode_upd _ _ hp, if_neg hne, hx]
  have hn1 : readNode (upd h p { np with next := some n }) (some n) = some nn := by
    rw [readNode_upd _ _ hp, if_neg hnp, hn]
  simp [removeNode, getPrev, getNext, hx, hxp, hxn, setNext_eq _ hp, hx1, setPrev_eq _ hn1]

theorem upd_upd_same (h : Heap) (a : Nat) (m n : Node) : upd (upd h a m) a n = upd h a n := by
  simp [upd]

theorem addToFront_eq {h : Heap} {hd x f : Nat} {nh nx nf : Node}
    (hh : readNode h (some hd) = some nh) (hx : readNode h (some x) = some nx)
    (hf : readNode h (some f) = some nf) (hhn : nh.next = some f)
    (hxh : x ≠ hd) (hxf : x ≠ f) (hfh : f ≠ hd) :
    addToFront h (some hd) (some x) =
      some (upd (upd (upd h x { nx with next := some f, prev := some hd })
        f { nf with prev := some x }) hd { nh with next := some x }) := by
  have hhx : hd ≠ x := fun e => hxh e.symm
  have hfx : f ≠ x := fun e => hxf e.symm
  have h1 : readNode (upd h x { nx with next := some f }) (some x)
      = some { nx with next := some f } := by
    rw [readNode_upd _ _ hx, if_pos rfl]
  have h2h : readNode (upd h x { nx with next := some f, prev := some hd }) (some hd)
      = some nh := by
    rw [readNode_upd _ _ hx, if_neg hhx, hh]
  have h2f : readNode (upd h x { nx with next := some f, prev := some hd }) (some f)
      = some nf := by
    rw [readNode_upd _ _ hx, if_neg hfx, hf]
  have h3h : readNode (upd (upd h x { nx with next := some f, prev := some hd })
      f { nf with prev := some x }) (some hd) = some nh := by
    rw [readNode_upd _ _ h2f, if_neg (fun e => hfh e.symm), h2h]
  simp [addToFront, getNext, hh, hhn, setNext_eq _ hx, setPrev_eq _ h1, upd_upd_same, h2h,
    setPrev_eq _ h2f, setNext_eq _ h3h]

@[simp] theorem firstPtr_nil (d : Ptr) : firstPtr [] d = d := rfl
@[simp] theorem firstPtr_cons (c : Cell) (cs : List Cell) (d : Ptr) :
    firstPtr (c :: cs) d = some c.addr := rfl
@[simp] theorem lastPtr_nil (d : Ptr) : lastPtr [] d = d := rfl
@[simp] theorem lastPtr_cons (c : Cell) (cs : List Cell) (d : Ptr) :
    lastPtr (c :: cs) d = lastPtr cs (some c.addr) := rfl
@[simp] theorem seg_nil (h : Heap) (p n : Ptr) : Seg h p [] n := trivial
@[simp] theorem seg_cons (h : Heap) (p n : Ptr) (c : Cell) (cs : List Cell) :
    Seg h p (c :: cs) n ↔
      (readNode h (some c.addr) = some ⟨c.key, c.value, p, firstPtr cs n⟩ ∧
        Seg h (some c.addr) cs n) := Iff.rfl

@[simp] theorem firstPtr_append (xs ys : List Cell) (d : Ptr) :
    firstPtr (xs ++ ys) d = firstPtr xs (firstPtr ys d) := by
  cases xs <;> rfl

@[simp] theorem lastPtr_append (xs ys : List Cell) (d : Ptr) :
    lastPtr (xs ++ ys) d = lastPtr ys (lastPtr xs d) := by
  induction xs generalizing d with
  | nil => rfl
  | cons c xs ih => simp [ih]

theorem seg_append (h : Heap) (xs ys : List Cell) (p n : Ptr) :
    Seg h p (xs ++ ys) n ↔ (Seg h p xs (firstPtr ys n) ∧ Seg h (lastPtr xs p) ys n) := by
  induction xs generalizing p with
  | nil => simp
  | cons c xs ih => simp [ih, and_assoc]

theorem seg_frame {h h1 : Heap} {cs : List Cell} {p n : Ptr}
    (hf : ∀ c ∈ cs, readNode h1 (some c.addr) = readNode h (some c.addr))
    (hs : Seg h p cs n) : Seg h1 p cs n := by
  induction cs generalizing p with
  | nil => simp
  | cons c cs ih =>
    simp only [seg_cons] at hs ⊢
    exact ⟨by rw [hf c (List.mem_cons_self _ _)]; exact hs.1,
      ih (fun d hd => hf d (List.mem_cons_of_mem _ hd)) hs.2⟩

theorem seg_read {h : Heap} {cs : List Cell} {p n : Ptr} (hs : Seg h p cs n) {c : Cell}
    (hc : c ∈ cs) : ∃ q r, readNode h (some c.addr) = some ⟨c.key, c.value, q, r⟩ := by
  induction cs generalizing p with
  | nil => simp at hc
  | cons d cs ih =>
    simp only [seg_cons] at hs
    rcases List.mem_cons.mp hc with rfl | hc
    · exact ⟨_, _, hs.1⟩
    · exact ih hs.2 hc

/-- Unlinking a cell that has a neighbour on either side. -/
theorem seg_remove {h : Heap} {P N : List Cell} {x : Cell} {q e : Ptr}
    (hs : Seg h q (P ++ x :: N) e) (hP : P ≠ []) (hN : N ≠ [])
    (hnd : ((P ++ x :: N).map Cell.addr).Nodup) :
    ∃ h1, removeNode h (some x.addr) = some h1 ∧ Seg h1 q (P ++ N) e ∧
      h1.length = h.length ∧
      ∀ a, a ∉ (P ++ N).map Cell.addr → readNode h1 (some a) = readNode h (some a) := by
  obtain ⟨P1, p, rfl⟩ : ∃ P1 p, P = P1 ++ [p] := by
    rcases List.eq_nil_or_concat P with hnil | ⟨P1, p, hp⟩
    · exact absurd hnil hP
    · exact ⟨P1, p, by simpa using hp⟩
  obtain ⟨n, N1, rfl⟩ : ∃ n N1, N = n :: N1 := by
    cases N with
    | nil => exact absurd rfl hN
    | cons n N1 => exact ⟨n, N1, rfl⟩
  simp only [seg_append, seg_cons, firstPtr_cons, firstPtr_nil, lastPtr_append, lastPtr_cons,
    lastPtr_nil, seg_nil, and_true] at hs
  obtain ⟨⟨hP1, hp⟩, hx, hn, hN1⟩ := hs
  simp only [List.map_append, List.map_cons, List.map_nil, List.append_assoc,
    List.singleton_append] at hnd
  have hnd1 := hnd
  rw [List.nodup_append] at hnd1
  obtain ⟨-, hnd2, hdisj⟩ := hnd1
  simp only [List.nodup_cons, List.mem_cons, not_or] at hnd2
  obtain ⟨⟨hpx, hpn, hpN⟩, ⟨hxn, hxN⟩, hnN, -⟩ := hnd2
  have hP1p : ∀ c ∈ P1, c.addr ≠ p.addr ∧ c.addr ≠ n.addr := by
    intro c hc
    have hd := hdisj (List.mem_map_of_mem Cell.addr hc)
    simp only [List.mem_cons] at hd
    exact ⟨fun e => hd (Or.inl e), fun e => hd (Or.inr (Or.inr (Or.inl e)))⟩
  have hN1p : ∀ c ∈ N1, c.addr ≠ p.addr ∧ c.addr ≠ n.addr := by
    intro c hc
    have hm := List.mem_map_of_mem Cell.addr hc
    exact ⟨fun e => hpN (e ▸ hm), fun e => hnN (e ▸ hm)⟩
  have hn0 : readNode (upd h p.addr { (⟨p.key, p.value, lastPtr P1 q, some x.addr⟩ : Node) with
      next := some n.addr }) (some n.addr) = some ⟨n.key, n.value, some x.addr, firstPtr N1 e⟩ := by
    rw [readNode_upd _ _ hp, if_neg (fun e => hpn e.symm), hn]
  have hrd : ∀ a, readNode (upd (upd h p.addr { (⟨p.key, p.value, lastPtr P1 q, some x.addr⟩ : Node)
      with next := some n.addr }) n.addr { (⟨n.key, n.value, some x.addr, firstPtr N1 e⟩ : Node)
      with prev := some p.addr }) (some a) =
      if a = n.addr then some ⟨n.key, n.value, some p.addr, firstPtr N1 e⟩
      else if a = p.addr then some ⟨p.key, p.value, lastPtr P1 q, some n.addr⟩
      else readNode h (some a) := by
    intro a
    rw [readNode_upd _ _ hn0, readNode_upd _ _ hp]
  refine ⟨_, removeNode_eq hx hp hn rfl rfl (fun e => hpx e.symm) (fun e => hpn e.symm), ?_,
    by simp [length_upd], ?_⟩
  · simp only [List.append_assoc, List.singleton_append, seg_append, seg_cons, firstPtr_cons,
      lastPtr_cons, lastPtr_nil, hrd, if_true, if_neg hpn, true_and]
    refine ⟨seg_frame (fun c hc => ?_) hP1, seg_frame (fun c hc => ?_) hN1⟩
    · rw [hrd, if_neg (hP1p c hc).2, if_neg (hP1p c hc).1]
    · rw [hrd, if_neg (hN1p c hc).2, if_neg (hN1p c hc).1]
  · intro a ha
    simp only [List.map_append, List.map_cons, List.map_nil, List.mem_append, List.mem_cons,
      List.mem_singleton, not_or] at ha
    rw [hrd, if_neg ha.2.1, if_neg ha.1.2.1]

/-- Linking an allocated cell, not yet in the list, right after the first cell. -/
theorem seg_addFront {h : Heap} {hdc f : Cell} {R : List Cell} {q e : Ptr} {x : Nat} {nx : Node}
    (hs : Seg h q (hdc :: f :: R) e) (hnd : ((hdc :: f :: R).map Cell.addr).Nodup)
    (hx : readNode h (some x) = some nx) (hxn : x ∉ (hdc :: f :: R).map Cell.addr) :
    ∃ h1, addToFront h (some hdc.addr) (some x) = some h1 ∧
      Seg h1 q (hdc :: ⟨x, nx.key, nx.value⟩ :: f :: R) e ∧ h1.length = h.length ∧
      ∀ a, a ∉ (hdc :: ⟨x, nx.key, nx.value⟩ :: f :: R).map Cell.addr →
        readNode h1 (some a) = readNode h (some a) := by
  simp only [seg_cons, firstPtr_cons] at hs
  obtain ⟨hh, hf, hR⟩ := hs
  simp only [List.map_cons, List.nodup_cons, List.mem_cons, not_or] at hnd hxn
  obtain ⟨⟨hhf, hhR⟩, hfR, -⟩ := hnd
  obtain ⟨hxh, hxf, hxR⟩ := hxn
  have e1 : addToFront h (some hdc.addr) (some x) = some (upd (upd (upd h x
      ⟨nx.key, nx.value, some hdc.addr, some f.addr⟩) f.addr
      ⟨f.key, f.value, some x, firstPtr R e⟩) hdc.addr ⟨hdc.key, hdc.value, q, some x⟩) :=
    addToFront_eq hh hx hf rfl hxh hxf (fun e => hhf e.symm)
  have lx := readNode_lt hx
  have lf := readNode_lt hf
  have lh := readNode_lt hh
  have hrd : ∀ a, readNode (upd (upd (upd h x
      ⟨nx.key, nx.value, some hdc.addr, some f.addr⟩) f.addr
      ⟨f.key, f.value, some x, firstPtr R e⟩) hdc.addr ⟨hdc.key, hdc.value, q, some x⟩) (some a) =
      if a = hdc.addr then some ⟨hdc.key, hdc.value, q, some x⟩
      else if a = f.addr then some ⟨f.key, f.value, some x, firstPtr R e⟩
      else if a = x then some ⟨nx.key, nx.value, some hdc.addr, some f.addr⟩
      else readNode h (some a) := by
    intro a
    rw [readNode_upd_lt _ _ _ _ (by simpa using lh), readNode_upd_lt _ _ _ _ (by simpa using lf),
      readNode_upd_lt _ _ _ _ lx]
  refine ⟨_, e1, ?_, by simp [length_upd], ?_⟩
  · simp only [seg_cons, firstPtr_cons, hrd, if_true, if_neg hxh, if_neg hxf,
      if_neg (fun e : f.addr = hdc.addr => hhf e.symm), true_and]
    refine seg_frame (fun c hc => ?_) hR
    have hm := List.mem_map_of_mem Cell.addr hc
    rw [hrd, if_neg (ne_of_mem_of_not_mem hm hhR), if_neg (ne_of_mem_of_not_mem hm hfR),
      if_neg (ne_of_mem_of_not_mem hm hxR)]
  · intro a ha
    simp only [List.map_cons, List.mem_cons, not_or] at ha
    rw [hrd, if_neg ha.1, if_neg ha.2.2.1, if_neg ha.2.1]

/-- Overwriting the value of a cell of a segment. -/
theorem seg_setValue {h : Heap} {P N : List Cell} {x : Cell} {q e : Ptr} (v : Int)
    (hs : Seg h q (P ++ x :: N) e) (hnd : ((P ++ x :: N).map Cell.addr).Nodup) :
    ∃ h1, setValue h (some x.addr) v = some h1 ∧
      Seg h1 q (P ++ { x with value := v } :: N) e ∧ h1.length = h.length ∧
      ∀ a, a ≠ x.addr → readNode h1 (some a) = readNode h (some a) := by
  simp only [seg_append, seg_cons, firstPtr_cons] at hs
  obtain ⟨hP, hx, hN⟩ := hs
  simp only [List.map_append, List.map_cons] at hnd
  rw [List.nodup_append] at hnd
  obtain ⟨-, hnd2, hdisj⟩ := hnd
  simp only [List.nodup_cons] at hnd2
  have hrd := fun a => readNode_upd ⟨x.key, v, lastPtr P q, firstPtr N e⟩ a hx
  have e1 : setValue h (some x.addr) v = some (upd h x.addr ⟨x.key, v, lastPtr P q, firstPtr N e⟩) :=
    setValue_eq v hx
  refine ⟨_, e1, ?_, by simp [length_upd], fun a ha => by rw [hrd, if_neg ha]⟩
  simp only [seg_append, seg_cons, firstPtr_cons, hrd, if_true, true_and]
  refine ⟨seg_frame (fun c hc => ?_) hP, seg_frame (fun c hc => ?_) hN⟩
  · rw [hrd, if_neg]
    intro e1
    exact hdisj (List.mem_map_of_mem Cell.addr hc) (e1 ▸ List.mem_cons_self _ _)
  · rw [hrd, if_neg]
    intro e1
    exact hnd2.1 (e1 ▸ List.mem_map_of_mem Cell.addr hc)

theorem seg_addFront_ne {h : Heap} {hdc : Cell} {rest : List Cell} {q e : Ptr} {x : Nat}
    {nx : Node} (hs : Seg h q (hdc :: rest) e) (hne : rest ≠ [])
    (hnd : ((hdc :: rest).map Cell.addr).Nodup)
    (hx : readNode h (some x) = some nx) (hxn : x ∉ (hdc :: rest).map Cell.addr) :
    ∃ h1, addToFront h (some hdc.addr) (some x) = some h1 ∧
      Seg h1 q (hdc :: ⟨x, nx.key, nx.value⟩ :: rest) e ∧ h1.length = h.length ∧
      ∀ a, a ∉ (hdc :: ⟨x, nx.key, nx.value⟩ :: rest).map Cell.addr →
        readNode h1 (some a) = readNode h (some a) := by
  cases rest with
  | nil => exact absurd rfl hne
  | cons f R => exact seg_addFront hs hnd hx hxn

/-! ## The index -/

theorem mapFind_eq_none {m : Index} {k : Int} : mapFind m k = none ↔ k ∉ m.map Prod.fst := by
  induction m with
  | nil => simp [mapFind]
  | cons e m ih =>
    obtain ⟨j, p⟩ := e
    by_cases hj : j = k
    · simp [mapFind, hj]
    · have hj2 : ¬ k = j := fun e => hj e.symm
      simp [mapFind, hj, hj2, ih]

theorem mapFind_erase (m : Index) (k j : Int) :
    mapFind (mapErase m k) j = if j = k then none else mapFind m j := by
  induction m with
  | nil => simp [mapErase, mapFind]
  | cons e m ih =>
    obtain ⟨i, p⟩ := e
    simp only [mapErase] at ih
    by_cases hi : i = k
    · subst hi
      by_cases hj : j = i
      · subst hj; simpa [mapErase, List.filter_cons] using ih
      · have hj2 : ¬ i = j := fun e => hj e.symm
        simpa [mapErase, List.filter_cons, mapFind, hj, hj2] using ih
    · by_cases hj : j = k
      · subst hj
        simpa [mapErase, List.filter_cons, mapFind, hi] using ih
      · by_cases hij : i = j
        · simp [mapErase, List.filter_cons, mapFind, hi, hj, hij]
        · simpa [mapErase, List.filter_cons, mapFind, hi, hj, hij] using ih

theorem mapFind_insert (m : Index) (k j : Int) (p : Ptr) :
    mapFind (mapInsert m k p) j = if j = k then some p else mapFind m j := by
  induction m with
  | nil =>
    by_cases hj : j = k
    · simp [mapInsert, mapFind, hj]
    · have hj2 : ¬ k = j := fun e => hj e.symm
      simp [mapInsert, mapFind, hj, hj2]
  | cons e m ih =>
    obtain ⟨i, q⟩ := e
    by_cases hi : i = k
    · subst hi
      by_cases hj : j = i
      · simp [mapInsert, mapFind, hj]
      · have hj2 : ¬ i = j := fun e => hj e.symm
        simp [mapInsert, mapFind, hj, hj2]
    · by_cases hij : i = j
      · subst hij
        simp [mapInsert, mapFind, hi]
      · simp [mapInsert, mapFind, hi, hij, ih]

theorem mapInsert_fresh {m : Index} {k : Int} (p : Ptr) (hk : k ∉ m.map Prod.fst) :
    (mapInsert m k p).length = m.length + 1 ∧
      ((m.map Prod.fst).Nodup → ((mapInsert m k p).map Prod.fst).Nodup) ∧
      ∀ j, j ∈ (mapInsert m k p).map Prod.fst ↔ j = k ∨ j ∈ m.map Prod.fst := by
  induction m with
  | nil => simp [mapInsert]
  | cons e m ih =>
    obtain ⟨i, q⟩ := e
    simp only [List.map_cons, List.mem_cons, not_or] at hk
    have hi : ¬ i = k := fun e => hk.1 e.symm
    obtain ⟨h1, h2, h3⟩ := ih hk.2
    simp only [mapInsert, hi, if_false, List.length_cons, h1, List.map_cons, List.nodup_cons,
      List.mem_cons, h3, true_and]
    refine ⟨fun hnd => ⟨?_, h2 hnd.2⟩, fun j => by tauto⟩
    rintro (hik | him)
    · exact hik.elim
    · exact hnd.1 him

theorem mapErase_present {m : Index} {k : Int} (hnd : (m.map Prod.fst).Nodup)
    (hk : k ∈ m.map Prod.fst) :
    (mapErase m k).length + 1 = m.length ∧ ((mapErase m k).map Prod.fst).Nodup := by
  induction m with
  | nil => simp at hk
  | cons e m ih =>
    obtain ⟨i, q⟩ := e
    simp only [List.map_cons, List.nodup_cons] at hnd
    by_cases hi : i = k
    · subst hi
      have hfil : mapErase m i = m := by
        simp only [mapErase]
        rw [List.filter_eq_self]
        intro a ha
        have : a.1 ≠ i := fun e => hnd.1 (e ▸ List.mem_map_of_mem Prod.fst ha)
        simpa using this
      have : mapErase ((i, q) :: m) i = m := by
        simp only [mapErase] at hfil ⊢
        rw [List.filter_cons_of_neg (by simp)]
        exact hfil
      rw [this]
      exact ⟨rfl, hnd.2⟩
    · have hk2 : k ∈ m.map Prod.fst := by
        simp only [List.map_cons, List.mem_cons] at hk
        rcases hk with hk | hk
        · exact absurd hk.symm hi
        · exact hk
      obtain ⟨h1, h2⟩ := ih hnd.2 hk2
      have : mapErase ((i, q) :: m) k = (i, q) :: mapErase m k := by
        simp [mapErase, List.filter_cons, hi]
      rw [this]
      refine ⟨by simp [h1], ?_⟩
      simp only [List.map_cons, List.nodup_cons]
      refine ⟨fun hmem => hnd.1 ?_, h2⟩
      simp only [mapErase, List.mem_map, List.mem_filter] at hmem
      obtain ⟨a, ⟨ha, -⟩, rfl⟩ := hmem
      exact List.mem_map_of_mem Prod.fst ha

/-! ## The representation invariant -/

theorem nodup_middle {α β : Type} (f : α → β) {P N : List α} {x : α}
    (h : ((P ++ x :: N).map f).Nodup) :
    f x ∉ (P ++ N).map f ∧ ((P ++ N).map f).Nodup := by
  have := ((List.perm_middle : List.Perm (P ++ x :: N) (x :: (P ++ N))).map f).nodup_iff.mp h
  simpa using this

theorem rep_moveToFront {s : LRUCache} {A B : List Cell} {x : Cell}
    (hr : Rep s (A ++ x :: B)) :
    ∃ h1, moveToFront s.heap s.head (some x.addr) = some h1 ∧
      Rep { s with heap := h1 } (x :: (A ++ B)) ∧ h1.length = s.heap.length := by
  have hseg : Seg s.heap none ((headCell :: A) ++ x :: (B ++ [tailCell])) none := by
    simpa using hr.seg
  have hnd : (((headCell :: A) ++ x :: (B ++ [tailCell])).map Cell.addr).Nodup := by
    simpa using hr.nodup_addr
  obtain ⟨h1, e1, s1, l1, f1⟩ := seg_remove hseg (by simp) (by simp) hnd
  obtain ⟨hxn, hnd1⟩ := nodup_middle Cell.addr hnd
  obtain ⟨q, r, hx⟩ := seg_read hseg (c := x) (by simp)
  have hx1 : readNode h1 (some x.addr) = some ⟨x.key, x.value, q, r⟩ := by
    rw [f1 _ hxn, hx]
  have s1c : Seg h1 none (headCell :: (A ++ (B ++ [tailCell]))) none := by simpa using s1
  have hnd1c : ((headCell :: (A ++ (B ++ [tailCell]))).map Cell.addr).Nodup := by
    simpa using hnd1
  have hxnc : x.addr ∉ (headCell :: (A ++ (B ++ [tailCell]))).map Cell.addr := by
    simpa using hxn
  obtain ⟨h2, e2, s2, l2, -⟩ := seg_addFront_ne s1c (by simp) hnd1c hx1 hxnc
  have e2c : addToFront h1 (some 0) (some x.addr) = some h2 := e2
  refine ⟨h2, by simp [moveToFront, e1, hr.head_eq, e2c], ?_, by rw [l2, l1]⟩
  have hperm : List.Perm (A ++ x :: B) (x :: (A ++ B)) := List.perm_middle
  refine ⟨hr.head_eq, hr.tail_eq, by simpa using s2, ?_, ?_, ?_, hr.nodup_idx, ?_⟩
  · have : List.Perm ((headCell :: ((A ++ x :: B) ++ [tailCell])).map Cell.addr)
        ((headCell :: ((x :: (A ++ B)) ++ [tailCell])).map Cell.addr) :=
      (((hperm.append_right _).cons _).map _)
    exact this.nodup_iff.mp hr.nodup_addr
  · exact (hperm.map _).nodup_iff.mp hr.nodup_key
  · intro k p
    rw [show ({ s with heap := h2 } : LRUCache).cache = s.cache from rfl, hr.find]
    constructor
    · rintro ⟨c, hc, h⟩
      exact ⟨c, hperm.mem_iff.mp hc, h⟩
    · rintro ⟨c, hc, h⟩
      exact ⟨c, hperm.mem_iff.mpr hc, h⟩
  · rw [show ({ s with heap := h2 } : LRUCache).cache = s.cache from rfl, hr.len]
    exact hperm.length_eq

theorem rep_read {s : LRUCache} {live : List Cell} (hr : Rep s live) {c : Cell}
    (hc : c ∈ live) : ∃ q r, readNode s.heap (some c.addr) = some ⟨c.key, c.value, q, r⟩ :=
  seg_read hr.seg (by simp [hc])

theorem rep_find_none {s : LRUCache} {live : List Cell} (hr : Rep s live) (k : Int) :
    mapFind s.cache k = none ↔ k ∉ live.map Cell.key := by
  constructor
  · intro h hk
    obtain ⟨c, hc, rfl⟩ := List.mem_map.mp hk
    have := (hr.find c.key (some c.addr)).2 ⟨c, hc, rfl, rfl⟩
    rw [h] at this
    exact absurd this (by simp)
  · intro h
    cases hf : mapFind s.cache k with
    | none => rfl
    | some p =>
      obtain ⟨c, hc, rfl, -⟩ := (hr.find k p).1 hf
      exact absurd (List.mem_map_of_mem Cell.key hc) h

/-- A hit of `get` returns the stored value and moves the cell to the front. -/
theorem rep_get_hit {s : LRUCache} {A B : List Cell} {x : Cell} (hr : Rep s (A ++ x :: B)) :
    ∃ s1, get s x.key = some (x.value, s1) ∧ Rep s1 (x :: (A ++ B)) ∧
      s1.capacity = s.capacity ∧ s1.cache = s.cache ∧ s1.heap.length = s.heap.length := by
  obtain ⟨h1, e1, r1, l1⟩ := rep_moveToFront hr
  have hfind : mapFind s.cache x.key = some (some x.addr) :=
    (hr.find _ _).2 ⟨x, by simp, rfl, rfl⟩
  obtain ⟨q, r, hx⟩ := rep_read r1 (c := x) (by simp)
  have hx1 : readNode h1 (some x.addr) = some ⟨x.key, x.value, q, r⟩ := hx
  refine ⟨{ s with heap := h1 }, ?_, r1, rfl, rfl, l1⟩
  simp [get, hfind, e1, getValue, hx1]

/-- A miss of `get` returns -1 and leaves the state as it is. -/
theorem rep_get_miss {s : LRUCache} {live : List Cell} (hr : Rep s live) {k : Int}
    (hk : k ∉ live.map Cell.key) : get s k = some (-1, s) := by
  simp [get, (rep_find_none hr k).2 hk]

theorem rep_setValue {s : LRUCache} {A B : List Cell} {x : Cell} (v : Int)
    (hr : Rep s (A ++ x :: B)) :
    ∃ h1, setValue s.heap (some x.addr) v = some h1 ∧
      Rep { s with heap := h1 } (A ++ ⟨x.addr, x.key, v⟩ :: B) ∧ h1.length = s.heap.length := by
  have hseg : Seg s.heap none ((headCell :: A) ++ x :: (B ++ [tailCell])) none := by
    simpa using hr.seg
  have hnd : (((headCell :: A) ++ x :: (B ++ [tailCell])).map Cell.addr).Nodup := by
    simpa using hr.nodup_addr
  obtain ⟨h1, e1, s1, l1, -⟩ := seg_setValue v hseg hnd
  refine ⟨h1, e1, ⟨hr.head_eq, hr.tail_eq, by simpa using s1, ?_, ?_, ?_, hr.nodup_idx, ?_⟩, l1⟩
  · simpa using hr.nodup_addr
  · simpa using hr.nodup_key
  · intro k p
    rw [show ({ s with heap := h1 } : LRUCache).cache = s.cache from rfl, hr.find]
    simp only [List.mem_append, List.mem_cons]
    constructor
    · rintro ⟨c, hc | rfl | hc, h⟩
      · exact ⟨c, Or.inl hc, h⟩
      · exact ⟨_, Or.inr (Or.inl rfl), h⟩
      · exact ⟨c, Or.inr (Or.inr hc), h⟩
    · rintro ⟨c, hc | rfl | hc, h⟩
      · exact ⟨c, Or.inl hc, h⟩
      · exact ⟨x, Or.inr (Or.inl rfl), h⟩
      · exact ⟨c, Or.inr (Or.inr hc), h⟩
  · rw [show ({ s with heap := h1 } : LRUCache).cache = s.cache from rfl, hr.len]
    simp

/-- A `put` of a cached key overwrites the value and moves the cell to the front. -/
theorem rep_put_hit {s : LRUCache} {A B : List Cell} {x : Cell} (v : Int)
    (hr : Rep s (A ++ x :: B)) :
    ∃ s1, put s x.key v = some s1 ∧ Rep s1 (⟨x.addr, x.key, v⟩ :: (A ++ B)) ∧
      s1.capacity = s.capacity ∧ s1.cache = s.cache ∧ s1.heap.length = s.heap.length := by
  obtain ⟨h1, e1, r1, l1⟩ := rep_setValue v hr
  obtain ⟨h2, e2, r2, l2⟩ := rep_moveToFront r1
  have hfind : mapFind s.cache x.key = some (some x.addr) :=
    (hr.find _ _).2 ⟨x, by simp, rfl, rfl⟩
  have e2c : moveToFront h1 s.head (some x.addr) = some h2 := e2
  refine ⟨{ s with heap := h2 }, ?_, r2, rfl, rfl, by rw [l2]; exact l1⟩
  simp [put, hfind, e1, e2c]

theorem readNode_alloc (h : Heap) (n : Option Node) (a : Nat) :
    readNode (h ++ [n]) (some a) = if a = h.length then n else readNode h (some a) := by
  simp only [readNode, List.getD_eq_getElem?_getD]
  rcases Nat.lt_trichotomy a h.length with hlt | heq | hgt
  · rw [List.getElem?_append_left hlt, if_neg (Nat.ne_of_lt hlt)]
  · subst heq
    simp
  · rw [if_neg (Nat.ne_of_gt hgt), List.getElem?_eq_none (by simp; omega),
      List.getElem?_eq_none (by omega)]

theorem rep_addr_lt {s : LRUCache} {live : List Cell} (hr : Rep s live) {a : Nat}
    (ha : a ∈ (headCell :: (live ++ [tailCell])).map Cell.addr) : a < s.heap.length := by
  obtain ⟨c, hc, rfl⟩ := List.mem_map.mp ha
  obtain ⟨q, r, h⟩ := seg_read hr.seg hc
  exact readNode_lt h

/-- The second half of the absent-key branch of `put`: allocate, register, link at the front. -/
theorem rep_addNew {s : LRUCache} {live : List Cell} (k v : Int) (hr : Rep s live)
    (hk : k ∉ live.map Cell.key) :
    ∃ h2, addToFront (allocNode s.heap k v).2 s.head (allocNode s.heap k v).1 = some h2 ∧
      Rep { s with cache := mapInsert s.cache k (allocNode s.heap k v).1, heap := h2 }
        (⟨s.heap.length, k, v⟩ :: live) ∧ h2.length = s.heap.length + 1 := by
  have hfresh : s.heap.length ∉ (headCell :: (live ++ [tailCell])).map Cell.addr :=
    fun hm => absurd (rep_addr_lt hr hm) (lt_irrefl _)
  have hrd : ∀ a, readNode (s.heap ++ [some ⟨k, v, none, none⟩]) (some a) =
      if a = s.heap.length then some ⟨k, v, none, none⟩ else readNode s.heap (some a) :=
    fun a => readNode_alloc _ _ _
  have s0 : Seg (s.heap ++ [some ⟨k, v, none, none⟩]) none (headCell :: (live ++ [tailCell]))
      none := by
    refine seg_frame (fun c hc => ?_) hr.seg
    rw [hrd, if_neg]
    exact ne_of_mem_of_not_mem (List.mem_map_of_mem Cell.addr hc) hfresh
  have hx : readNode (s.heap ++ [some ⟨k, v, none, none⟩]) (some s.heap.length) =
      some ⟨k, v, none, none⟩ := by rw [hrd, if_pos rfl]
  obtain ⟨h2, e2, s2, l2, -⟩ := seg_addFront_ne s0 (by simp) hr.nodup_addr hx hfresh
  have e2c : addToFront (allocNode s.heap k v).2 (some 0) (allocNode s.heap k v).1 = some h2 := e2
  have hkidx : k ∉ s.cache.map Prod.fst := mapFind_eq_none.mp ((rep_find_none hr k).2 hk)
  obtain ⟨m1, m2, -⟩ := mapInsert_fresh (allocNode s.heap k v).1 hkidx
  refine ⟨h2, by rw [hr.head_eq]; exact e2c, ⟨hr.head_eq, hr.tail_eq, s2, ?_, ?_, ?_,
    m2 hr.nodup_idx, ?_⟩, by rw [l2]; simp⟩
  · have hp : List.Perm
        ((headCell :: ((⟨s.heap.length, k, v⟩ :: live) ++ [tailCell])).map Cell.addr)
        (s.heap.length :: (headCell :: (live ++ [tailCell])).map Cell.addr) :=
      List.Perm.swap _ _ _
    exact hp.nodup_iff.mpr (List.nodup_cons.mpr ⟨hfresh, hr.nodup_addr⟩)
  · simp only [List.map_cons, List.nodup_cons]
    exact ⟨hk, hr.nodup_key⟩
  · intro j p
    show mapFind (mapInsert s.cache k (some s.heap.length)) j = some p ↔ _
    rw [mapFind_insert]
    by_cases hj : j = k
    · subst hj
      simp only [if_true, List.mem_cons]
      constructor
      · intro h
        exact ⟨_, Or.inl rfl, rfl, (Option.some.inj h).symm⟩
      · rintro ⟨c, rfl | hc, hck, hp⟩
        · rw [hp]
        · exact absurd (hck ▸ List.mem_map_of_mem Cell.key hc) hk
    · rw [if_neg hj, hr.find]
      simp only [List.mem_cons]
      constructor
      · rintro ⟨c, hc, h⟩
        exact ⟨c, Or.inr hc, h⟩
      · rintro ⟨c, rfl | hc, hck, hp⟩
        · exact absurd hck.symm hj
        · exact ⟨c, hc, hck, hp⟩
  · show (mapInsert s.cache k (some s.heap.length)).length = _
    have := m1
    simp only [allocNode] at this
    rw [this, hr.len]
    simp

theorem freeNode_eq {h : Heap} {a : Nat} {m : Node} (hr : readNode h (some a) = some m) :
    freeNode h (some a) = some (h.set a none) := by
  simp only [readNode] at hr
  simp only [freeNode, hr]

theorem mapFind_mem_keys {m : Index} {k : Int} {p : Ptr} (h : mapFind m k = some p) :
    k ∈ m.map Prod.fst := by
  by_contra hk
  rw [mapFind_eq_none.mpr hk] at h
  exact absurd h (by simp)

/-- The eviction block of `put` on a full, non-empty cache: the cell before the tail sentinel
is unlinked, dropped from the index and deleted. -/
theorem rep_evict {s : LRUCache} {A : List Cell} {x : Cell} (hr : Rep s (A ++ [x]))
    (hfull : toInt32 s.cache.length = s.capacity) :
    ∃ h2, evictIfFull s = some { s with cache := mapErase s.cache x.key, heap := h2 } ∧
      Rep { s with cache := mapErase s.cache x.key, heap := h2 } A ∧
      h2.length = s.heap.length := by
  have hseg : Seg s.heap none ((headCell :: A) ++ x :: [tailCell]) none := by
    simpa using hr.seg
  have hnd : (((headCell :: A) ++ x :: [tailCell]).map Cell.addr).Nodup := by
    simpa using hr.nodup_addr
  have htl : readNode s.heap (some 1) = some ⟨-1, -1, some x.addr, none⟩ := by
    have := hseg
    simp only [seg_append, seg_cons, firstPtr_cons, firstPtr_nil, lastPtr_cons, lastPtr_nil,
      seg_nil, and_true] at this
    exact this.2.2
  obtain ⟨h1, e1, s1, l1, f1⟩ := seg_remove hseg (by simp) (by simp) hnd
  obtain ⟨hxn, hnd1⟩ := nodup_middle Cell.addr hnd
  obtain ⟨q, r, hx⟩ := seg_read hseg (c := x) (by simp)
  have hx1 : readNode h1 (some x.addr) = some ⟨x.key, x.value, q, r⟩ := by
    rw [f1 _ hxn, hx]
  have hx0 : ¬ x.addr = 0 := by
    intro e
    apply hxn
    rw [e]
    simp [headCell]
  have hpop : popTail s.heap s.head s.tail = some (some x.addr, h1) := by
    simp [popTail, hr.head_eq, hr.tail_eq, getPrev, htl, hx0, e1]
  have hfree := freeNode_eq hx1
  have hfindx : mapFind s.cache x.key = some (some x.addr) :=
    (hr.find _ _).2 ⟨x, by simp, rfl, rfl⟩
  obtain ⟨m1, m2⟩ := mapErase_present hr.nodup_idx (mapFind_mem_keys hfindx)
  have hxA : x.key ∉ A.map Cell.key := by
    have := hr.nodup_key
    rw [List.map_append, List.nodup_append] at this
    exact fun hm => this.2.2 hm (by simp)
  refine ⟨h1.set x.addr none, ?_, ⟨hr.head_eq, hr.tail_eq, ?_, ?_, ?_, ?_, m2, ?_⟩,
    by simp [l1]⟩
  · simp [evictIfFull, hfull, hpop, getKey, hx1, hfree]
  · refine seg_frame (fun c hc => ?_) (by simpa using s1)
    show readNode (h1.set x.addr none) (some c.addr) = _
    rw [readNode_set _ _ _ _ (readNode_lt hx1), if_neg]
    exact ne_of_mem_of_not_mem (List.mem_map_of_mem Cell.addr (by simpa using hc)) hxn
  · simpa using hnd1
  · have := hr.nodup_key
    rw [List.map_append, List.nodup_append] at this
    exact this.1
  · intro j p
    show mapFind (mapErase s.cache x.key) j = some p ↔ _
    rw [mapFind_erase]
    by_cases hj : j = x.key
    · subst hj
      simp only [if_true]
      constructor
      · intro h
        exact absurd h (by simp)
      · rintro ⟨c, hc, hck, -⟩
        exact absurd (hck ▸ List.mem_map_of_mem Cell.key hc) hxA
    · rw [if_neg hj, hr.find]
      constructor
      · rintro ⟨c, hc, hck, hp⟩
        rcases List.mem_append.mp hc with hc | hc
        · exact ⟨c, hc, hck, hp⟩
        · rw [List.mem_singleton.mp hc] at hck
          exact absurd hck.symm hj
      · rintro ⟨c, hc, h⟩
        exact ⟨c, List.mem_append_left _ hc, h⟩
  · show (mapErase s.cache x.key).length = A.length
    have := hr.len
    simp only [List.length_append, List.length_singleton] at this
    omega

/-- The eviction block of `put` on an empty cache: `popTail` returns null, nothing changes. -/
theorem rep_evict_empty {s : LRUCache} (hr : Rep s []) : evictIfFull s = some s := by
  have htl : readNode s.heap (some 1) = some ⟨-1, -1, some 0, none⟩ := by
    have := hr.seg
    simp only [List.nil_append, seg_cons, firstPtr_cons, firstPtr_nil, seg_nil, and_true] at this
    exact this.2
  have hpop : popTail s.heap s.head s.tail = some (none, s.heap) := by
    simp [popTail, hr.head_eq, hr.tail_eq, getPrev, htl]
  by_cases hfull : toInt32 s.cache.length = s.capacity
  · simp [evictIfFull, hfull, hpop]
  · simp [evictIfFull, hfull]

theorem evictIfFull_of_ne {s : LRUCache} (h : toInt32 s.cache.length ≠ s.capacity) :
    evictIfFull s = some s := by
  simp [evictIfFull, h]

/-! ## The list model and the simulation -/

theorem mLookup_eq_none {l : List (Int × Int)} {k : Int} :
    mLookup l k = none ↔ k ∉ l.map Prod.fst := by
  induction l with
  | nil => simp [mLookup]
  | cons e l ih =>
    obtain ⟨j, v⟩ := e
    by_cases hj : j = k
    · simp [mLookup, hj]
    · have hj2 : ¬ k = j := fun e => hj e.symm
      simp [mLookup, hj, hj2, ih]

theorem map_fst_kv (live : List Cell) : (live.map Cell.kv).map Prod.fst = live.map Cell.key := by
  simp [List.map_map, Function.comp_def, Cell.kv]

theorem mLookup_split {A B : List Cell} {x : Cell}
    (hnd : ((A ++ x :: B).map Cell.key).Nodup) :
    mLookup ((A ++ x :: B).map Cell.kv) x.key = some x.value := by
  induction A with
  | nil => simp [mLookup, Cell.kv]
  | cons a A ih =>
    simp only [List.cons_append, List.map_cons, List.nodup_cons] at hnd
    have hne : ¬ a.key = x.key := by
      intro e
      apply hnd.1
      rw [e]
      simp
    simp only [List.cons_append, List.map_cons, Cell.kv, mLookup, if_neg hne]
    exact ih hnd.2

theorem mRemove_split {A B : List Cell} {x : Cell}
    (hnd : ((A ++ x :: B).map Cell.key).Nodup) :
    mRemove ((A ++ x :: B).map Cell.kv) x.key = (A ++ B).map Cell.kv := by
  obtain ⟨hx, -⟩ := nodup_middle Cell.key hnd
  have hfil : ∀ L : List Cell, x.key ∉ L.map Cell.key →
      (L.map Cell.kv).filter (fun e => decide (e.1 ≠ x.key)) = L.map Cell.kv := by
    intro L hL
    rw [List.filter_eq_self]
    intro e he
    obtain ⟨c, hc, rfl⟩ := List.mem_map.mp he
    have : c.key ≠ x.key := fun e => hL (e ▸ List.mem_map_of_mem Cell.key hc)
    simpa [Cell.kv] using this
  have hxA : x.key ∉ A.map Cell.key := fun h => hx (by simp [h])
  have hxB : x.key ∉ B.map Cell.key := fun h => hx (by simp [h])
  simp only [mRemove, List.map_append, List.map_cons, List.filter_append]
  rw [hfil A hxA, List.filter_cons_of_neg (by simp [Cell.kv]), hfil B hxB]

theorem abs_get {s : LRUCache} {l : List (Int × Int)} (ha : Abs s l) (k : Int) :
    ∃ s1, get s k = some ((mGet l k).1, s1) ∧ Abs s1 (mGet l k).2 ∧
      s1.capacity = s.capacity ∧ s1.cache = s.cache := by
  obtain ⟨live, hr, rfl⟩ := ha
  by_cases hk : k ∈ live.map Cell.key
  · obtain ⟨x, hx, rfl⟩ := List.mem_map.mp hk
    obtain ⟨A, B, rfl⟩ := List.append_of_mem hx
    obtain ⟨s1, e1, r1, c1, i1, -⟩ := rep_get_hit hr
    have hg : mGet ((A ++ x :: B).map Cell.kv) x.key
        = (x.value, (x.key, x.value) :: (A ++ B).map Cell.kv) := by
      simp only [mGet, mLookup_split hr.nodup_key, mRemove_split hr.nodup_key]
    rw [hg]
    exact ⟨s1, e1, ⟨x :: (A ++ B), r1, rfl⟩, c1, i1⟩
  · have hn : mLookup (live.map Cell.kv) k = none := by
      rw [mLookup_eq_none, map_fst_kv]
      exact hk
    have hg : mGet (live.map Cell.kv) k = (-1, live.map Cell.kv) := by
      simp only [mGet, hn]
    rw [hg]
    exact ⟨s, rep_get_miss hr hk, ⟨live, hr, rfl⟩, rfl, rfl⟩

theorem abs_put {s : LRUCache} {l : List (Int × Int)} (ha : Abs s l) (k v : Int) :
    ∃ s1, put s k v = some s1 ∧ Abs s1 (mPut s.capacity l k v) ∧
      s1.capacity = s.capacity := by
  obtain ⟨live, hr, rfl⟩ := ha
  by_cases hk : k ∈ live.map Cell.key
  · obtain ⟨x, hx, rfl⟩ := List.mem_map.mp hk
    obtain ⟨A, B, rfl⟩ := List.append_of_mem hx
    obtain ⟨s1, e1, r1, c1, -, -⟩ := rep_put_hit v hr
    have hg : mPut s.capacity ((A ++ x :: B).map Cell.kv) x.key v
        = (x.key, v) :: (A ++ B).map Cell.kv := by
      simp only [mPut, mLookup_split hr.nodup_key, mRemove_split hr.nodup_key]
    rw [hg]
    exact ⟨s1, e1, ⟨_, r1, rfl⟩, c1⟩
  · have hn : mLookup (live.map Cell.kv) k = none := by
      rw [mLookup_eq_none, map_fst_kv]
      exact hk
    have hfind := (rep_find_none hr k).2 hk
    by_cases hfull : toInt32 s.cache.length = s.capacity
    · have hfull2 : toInt32 (live.map Cell.kv).length = s.capacity := by
        rw [List.length_map, ← hr.len]
        exact hfull
      rcases List.eq_nil_or_concat live with rfl | ⟨A, x, rfl⟩
      · obtain ⟨h2, e2, r2, -⟩ := rep_addNew k v hr hk
        refine ⟨_, ?_, ⟨_, r2, ?_⟩, rfl⟩
        · simp only [put, hfind, rep_evict_empty hr]
          simp [e2]
        · simp [mPut, mLookup, Cell.kv]
      · have hr1 : Rep s (A ++ [x]) := by simpa using hr
        obtain ⟨h1, e1, r1, -⟩ := rep_evict hr1 hfull
        have hkA : k ∉ A.map Cell.key := fun h => hk (by simp [h])
        obtain ⟨h2, e2, r2, -⟩ := rep_addNew k v r1 hkA
        refine ⟨_, ?_, ⟨_, r2, ?_⟩, rfl⟩
        · simp only [put, hfind, e1]
          simp [e2]
        · simp only [mPut, hn, hfull2, if_true]
          simp [Cell.kv]
    · have hfull2 : ¬ toInt32 (live.map Cell.kv).length = s.capacity := by
        rw [List.length_map, ← hr.len]
        exact hfull
      obtain ⟨h2, e2, r2, -⟩ := rep_addNew k v hr hk
      refine ⟨_, ?_, ⟨_, r2, ?_⟩, rfl⟩
      · simp only [put, hfind, evictIfFull_of_ne hfull]
        simp [e2]
      · simp only [mPut, hn, hfull2, if_false]
        simp [Cell.kv]

/-! ## What an observer sees of a represented state -/

theorem abs_count {s : LRUCache} {l : List (Int × Int)} (ha : Abs s l) : count s = l.length := by
  obtain ⟨live, hr, rfl⟩ := ha
  simp [count, hr.len]

theorem abs_nodup {s : LRUCache} {l : List (Int × Int)} (ha : Abs s l) :
    (l.map Prod.fst).Nodup := by
  obtain ⟨live, hr, rfl⟩ := ha
  rw [map_fst_kv]
  exact hr.nodup_key

theorem abs_cached {s : LRUCache} {l : List (Int × Int)} (ha : Abs s l) (k : Int) :
    cached s k = true ↔ k ∈ l.map Prod.fst := by
  obtain ⟨live, hr, rfl⟩ := ha
  rw [map_fst_kv]
  have := rep_find_none hr k
  cases hf : mapFind s.cache k with
  | none => simpa [cached, hf] using this.1 hf
  | some p =>
    have hk : k ∈ live.map Cell.key := by
      by_contra hk
      rw [this.2 hk] at hf
      exact absurd hf (by simp)
    simp [cached, hf, hk]

theorem abs_cached_false {s : LRUCache} {l : List (Int × Int)} (ha : Abs s l) (k : Int) :
    cached s k = false ↔ k ∉ l.map Prod.fst := by
  rw [← abs_cached ha k]
  simp

theorem abs_stored {s : LRUCache} {l : List (Int × Int)} (ha : Abs s l) (k : Int) :
    stored s k = mLookup l k := by
  obtain ⟨live, hr, rfl⟩ := ha
  by_cases hk : k ∈ live.map Cell.key
  · obtain ⟨x, hx, rfl⟩ := List.mem_map.mp hk
    obtain ⟨A, B, rfl⟩ := List.append_of_mem hx
    have hfind : mapFind s.cache x.key = some (some x.addr) :=
      (hr.find _ _).2 ⟨x, by simp, rfl, rfl⟩
    obtain ⟨q, r, hx1⟩ := rep_read hr hx
    rw [mLookup_split hr.nodup_key]
    simp [stored, hfind, getValue, hx1]
  · have hn : mLookup (live.map Cell.kv) k = none := by
      rw [mLookup_eq_none, map_fst_kv]
      exact hk
    rw [hn]
    simp [stored, (rep_find_none hr k).2 hk]

theorem walk_seg {h : Heap} {cs : List Cell} {p : Ptr} {t : Nat} {fuel : Nat}
    (hs : Seg h p (cs ++ [⟨t, -1, -1⟩]) none) (hnd : t ∉ cs.map Cell.addr)
    (hfuel : cs.length < fuel) :
    walk h (some t) fuel (firstPtr (cs ++ [⟨t, -1, -1⟩]) none) = some cs := by
  induction cs generalizing p fuel with
  | nil =>
    cases fuel with
    | zero => exact absurd hfuel (by simp)
    | succ n => simp [walk]
  | cons c cs ih =>
    cases fuel with
    | zero => exact absurd hfuel (by simp)
    | succ n =>
      simp only [List.cons_append, seg_cons] at hs
      simp only [List.map_cons, List.mem_cons, not_or] at hnd
      have hne : ¬ c.addr = t := fun e => hnd.1 e.symm
      have := ih hs.2 hnd.2 (by simpa using hfuel)
      simp only [firstPtr_append, firstPtr_cons, firstPtr_nil] at this
      simp [walk, hne, hs.1, this]

theorem rep_length_le {s : LRUCache} {live : List Cell} (hr : Rep s live) :
    live.length + 2 ≤ s.heap.length := by
  have hsub : (headCell :: (live ++ [tailCell])).map Cell.addr ⊆ List.range s.heap.length := by
    intro a ha
    exact List.mem_range.mpr (rep_addr_lt hr ha)
  have := (hr.nodup_addr.subperm hsub).length_le
  simp only [List.map_cons, List.map_append, List.map_nil, List.length_cons, List.length_append,
    List.length_map, List.length_nil, List.length_range] at this
  omega

theorem rep_liveNodes {s : LRUCache} {live : List Cell} (hr : Rep s live) :
    liveNodes s = some live := by
  have hseg := hr.seg
  simp only [seg_cons] at hseg
  have hnd := hr.nodup_addr
  simp only [List.map_cons, List.map_append, List.map_nil, List.nodup_cons, List.mem_append,
    List.mem_singleton, not_or, List.nodup_append] at hnd
  have htl : (1 : Nat) ∉ live.map Cell.addr := by
    intro hm
    exact hnd.2.2.2 hm (by simp [tailCell])
  have hw : walk s.heap (some 1) s.heap.length (firstPtr (live ++ [tailCell]) none) = some live :=
    walk_seg hseg.2 htl (by have := rep_length_le hr; omega)
  have hh : readNode s.heap (some 0) = some ⟨-1, -1, none, firstPtr (live ++ [tailCell]) none⟩ :=
    hseg.1
  simp only [liveNodes, hr.head_eq, hr.tail_eq, getNext, hh]
  exact hw

theorem abs_debugPrint {s : LRUCache} {l : List (Int × Int)} (ha : Abs s l) :
    debugPrint s = some l := by
  obtain ⟨live, hr, rfl⟩ := ha
  simp only [debugPrint, rep_liveNodes hr, Option.map_some']
  rfl

theorem abs_frontKey {s : LRUCache} {l : List (Int × Int)} {k v : Int}
    (ha : Abs s ((k, v) :: l)) : frontKey s = some k := by
  obtain ⟨live, hr, hl⟩ := ha
  cases live with
  | nil => simp at hl
  | cons c cs =>
    simp only [List.map_cons, List.cons.injEq, Cell.kv, Prod.mk.injEq] at hl
    obtain ⟨⟨rfl, rfl⟩, -⟩ := hl
    have hseg := hr.seg
    simp only [List.cons_append, seg_cons, firstPtr_cons] at hseg
    have hnd := hr.nodup_addr
    simp only [List.map_cons, List.cons_append, List.map_append, List.map_nil, List.nodup_cons,
      List.mem_cons, List.mem_append, List.mem_singleton, not_or] at hnd
    have hne : ¬ c.addr = 1 := hnd.2.1.2.1
    have hh : readNode s.heap (some 0) = some ⟨-1, -1, none, some c.addr⟩ := hseg.1
    simp [frontKey, hr.head_eq, hr.tail_eq, getNext, hh, hne, getKey, hseg.2.1]

/-! ## Histories -/

theorem init_eq (cap : Int) : init cap = some ⟨cap, [], some 0, some 1,
    [some ⟨-1, -1, none, some 1⟩, some ⟨-1, -1, some 0, none⟩]⟩ := rfl

theorem abs_init (cap : Int) : ∃ s, init cap = some s ∧ Abs s [] ∧ s.capacity = cap := by
  refine ⟨_, init_eq cap, ⟨[], ⟨rfl, rfl, ?_, ?_, ?_, ?_, ?_, rfl⟩, rfl⟩, rfl⟩
  · simp [headCell, tailCell, readNode]
  · simp [headCell, tailCell]
  · simp
  · intro k p
    simp [mapFind]
  · simp

theorem abs_step {s : LRUCache} {l : List (Int × Int)} (ha : Abs s l) (op : Op) :
    ∃ s1 r, step s op = some (s1, r) ∧ Abs s1 (mStep s.capacity l op) ∧
      s1.capacity = s.capacity := by
  cases op with
  | get k =>
    obtain ⟨s1, e1, a1, c1, -⟩ := abs_get ha k
    exact ⟨s1, some (mGet l k).1, by simp [step, e1], a1, c1⟩
  | put k v =>
    obtain ⟨s1, e1, a1, c1⟩ := abs_put ha k v
    exact ⟨s1, none, by simp [step, e1], a1, c1⟩

theorem abs_runFrom {s : LRUCache} {l : List (Int × Int)} (ha : Abs s l) (ops : List Op) :
    ∃ s1, runFrom s ops = some s1 ∧ Abs s1 (ops.foldl (mStep s.capacity) l) ∧
      s1.capacity = s.capacity := by
  induction ops generalizing s l with
  | nil => exact ⟨s, rfl, ha, rfl⟩
  | cons op ops ih =>
    obtain ⟨s1, r, e1, a1, c1⟩ := abs_step ha op
    obtain ⟨s2, e2, a2, c2⟩ := ih a1
    refine ⟨s2, by simp [runFrom, e1, e2], ?_, by rw [c2, c1]⟩
    rw [c1] at a2
    exact a2

/-- Every history runs to completion, and the state it reaches represents the list model. -/
theorem abs_run (cap : Int) (ops : List Op) :
    ∃ s, run cap ops = some s ∧ Abs s (mRun cap ops) ∧ s.capacity = cap := by
  obtain ⟨s0, e0, a0, c0⟩ := abs_init cap
  obtain ⟨s1, e1, a1, c1⟩ := abs_runFrom a0 ops
  refine ⟨s1, by simp [run, e0, e1], ?_, by rw [c1, c0]⟩
  rw [c0] at a1
  exact a1

theorem run_append (cap : Int) (ops : List Op) (op : Op) :
    run cap (ops ++ [op]) = (run cap ops).bind fun s => (step s op).map Prod.fst := by
  have h : ∀ (s : LRUCache) (ops : List Op), runFrom s (ops ++ [op])
      = (runFrom s ops).bind fun s => (step s op).map Prod.fst := by
    intro s ops
    induction ops generalizing s with
    | nil =>
      simp only [List.nil_append, runFrom, Option.some_bind]
      cases step s op <;> simp
    | cons o ops ih =>
      simp only [List.cons_append, runFrom]
      cases step s o with
      | none => simp
      | some r => simpa using ih r.1
  simp only [run]
  cases init cap with
  | none => simp
  | some s => simpa using h s ops

theorem mRun_append (cap : Int) (ops : List Op) (op : Op) :
    mRun cap (ops ++ [op]) = mStep cap (mRun cap ops) op := by
  simp [mRun]

/-! ## Facts about the list model -/

theorem toInt32_of_le {n : Nat} (h : (n : Int) ≤ 2147483647) : toInt32 n = n := by
  unfold toInt32
  omega

theorem mRemove_of_not_mem {l : List (Int × Int)} {k : Int} (h : k ∉ l.map Prod.fst) :
    mRemove l k = l := by
  simp only [mRemove]
  rw [List.filter_eq_self]
  intro e he
  have : e.1 ≠ k := fun e1 => h (e1 ▸ List.mem_map_of_mem Prod.fst he)
  simpa using this

theorem mLookup_some_split {l : List (Int × Int)} {k v : Int} (hnd : (l.map Prod.fst).Nodup)
    (h : mLookup l k = some v) :
    ∃ A B, l = A ++ (k, v) :: B ∧ mRemove l k = A ++ B ∧ k ∉ A.map Prod.fst ∧
      k ∉ B.map Prod.fst := by
  induction l with
  | nil => simp [mLookup] at h
  | cons e l ih =>
    obtain ⟨j, w⟩ := e
    simp only [List.map_cons, List.nodup_cons] at hnd
    by_cases hj : j = k
    · subst hj
      simp only [mLookup, if_true, Option.some.injEq] at h
      subst h
      refine ⟨[], l, rfl, ?_, by simp, hnd.1⟩
      have := mRemove_of_not_mem hnd.1
      simp only [mRemove] at this ⊢
      rw [List.filter_cons_of_neg (by simp)]
      simpa using this
    · simp only [mLookup, if_neg hj] at h
      obtain ⟨A, B, hl, hr, hA, hB⟩ := ih hnd.2 h
      refine ⟨(j, w) :: A, B, by rw [hl]; rfl, ?_, ?_, hB⟩
      · simp only [mRemove] at hr ⊢
        rw [List.filter_cons_of_pos (by simpa using hj), hr]
        rfl
      · simp only [List.map_cons, List.mem_cons, not_or]
        exact ⟨fun e => hj e.symm, hA⟩

theorem mLookup_isSome {l : List (Int × Int)} {k : Int} (h : k ∈ l.map Prod.fst) :
    ∃ v, mLookup l k = some v := by
  cases hl : mLookup l k with
  | none => exact absurd h (mLookup_eq_none.mp hl)
  | some v => exact ⟨v, rfl⟩

/-- The shape of the list after a call: either nothing moved, or the key of the call went to the
front of what is left of the old list. -/
theorem mStep_cases (cap : Int) {l : List (Int × Int)} (hnd : (l.map Prod.fst).Nodup)
    (op : Op) :
    (∃ k, op = .get k ∧ k ∉ l.map Prod.fst ∧ mStep cap l op = l) ∨
    (∃ k v A B, (op = .get k ∨ ∃ w, op = .put k w) ∧ l = A ++ (k, v) :: B ∧
      k ∉ (A ++ B).map Prod.fst ∧
      ∃ w, mStep cap l op = (k, w) :: (A ++ B) ∧ (op = .get k → w = v) ∧
        (∀ u, op = .put k u → w = u)) ∨
    (∃ k v, op = .put k v ∧ k ∉ l.map Prod.fst ∧ toInt32 l.length ≠ cap ∧
      mStep cap l op = (k, v) :: l) ∨
    (∃ k v, op = .put k v ∧ k ∉ l.map Prod.fst ∧ toInt32 l.length = cap ∧
      mStep cap l op = (k, v) :: l.dropLast) := by
  cases op with
  | get k =>
    cases hl : mLookup l k with
    | none =>
      exact Or.inl ⟨k, rfl, mLookup_eq_none.mp hl, by simp [mStep, mGet, hl]⟩
    | some v =>
      obtain ⟨A, B, e, hr, hA, hB⟩ := mLookup_some_split hnd hl
      refine Or.inr (Or.inl ⟨k, v, A, B, Or.inl rfl, e, ?_, v, ?_, fun _ => rfl, ?_⟩)
      · simp only [List.map_append, List.mem_append, not_or]
        exact ⟨hA, hB⟩
      · simp [mStep, mGet, hl, hr]
      · intro u hu
        cases hu
  | put k v =>
    cases hl : mLookup l k with
    | none =>
      by_cases hfull : toInt32 l.length = cap
      · exact Or.inr (Or.inr (Or.inr ⟨k, v, rfl, mLookup_eq_none.mp hl, hfull,
          by simp [mStep, mPut, hl, hfull]⟩))
      · exact Or.inr (Or.inr (Or.inl ⟨k, v, rfl, mLookup_eq_none.mp hl, hfull,
          by simp [mStep, mPut, hl, hfull]⟩))
    | some w =>
      obtain ⟨A, B, e, hr, hA, hB⟩ := mLookup_some_split hnd hl
      refine Or.inr (Or.inl ⟨k, w, A, B, Or.inr ⟨v, rfl⟩, e, ?_, v, ?_, ?_, ?_⟩)
      · simp only [List.map_append, List.mem_append, not_or]
        exact ⟨hA, hB⟩
      · simp [mStep, mPut, hl, hr]
      · intro hu
        cases hu
      · intro u hu
        cases hu
        rfl

theorem mRun_nodup (cap : Int) (ops : List Op) : ((mRun cap ops).map Prod.fst).Nodup := by
  obtain ⟨s, -, a, -⟩ := abs_run cap ops
  exact abs_nodup a

theorem mStep_length_le {c : Int} (h1 : 1 ≤ c) (h2 : c ≤ 2147483647) {l : List (Int × Int)}
    (hnd : (l.map Prod.fst).Nodup) (hl : (l.length : Int) ≤ c) (op : Op) :
    ((mStep c l op).length : Int) ≤ c := by
  rcases mStep_cases c hnd op with ⟨k, -, -, e⟩ | ⟨k, v, A, B, -, e, -, w, e1, -⟩ |
    ⟨k, v, -, -, hne, e⟩ | ⟨k, v, -, -, heq, e⟩
  · rw [e]; exact hl
  · rw [e1]
    rw [e] at hl
    simp only [List.length_cons, List.length_append] at hl ⊢
    exact hl
  · rw [e]
    rw [toInt32_of_le (by omega)] at hne
    simp only [List.length_cons, Nat.cast_add, Nat.cast_one]
    omega
  · rw [e]
    rw [toInt32_of_le (by omega)] at heq
    simp only [List.length_cons, List.length_dropLast, Nat.cast_add, Nat.cast_one]
    omega

theorem mRun_length_le {c : Int} (h1 : 1 ≤ c) (h2 : c ≤ 2147483647) (ops : List Op) :
    ((mRun c ops).length : Int) ≤ c := by
  induction ops using List.reverseRecOn with
  | nil =>
    simp only [mRun, List.foldl_nil, List.length_nil, Nat.cast_zero]
    omega
  | append_singleton ops op ih =>
    rw [mRun_append]
    exact mStep_length_le h1 h2 (mRun_nodup c ops) ih op

/-! ## Touches and recency -/

theorem touchAt_append_lt (cap : Int) (ops : List Op) (op : Op) {t : Nat} (k : Int)
    (ht : t < ops.length) : touchAt cap (ops ++ [op]) t k = touchAt cap ops t k := by
  simp only [touchAt, List.get?_eq_getElem?]
  rw [List.getElem?_append_left ht, List.take_append_of_le_length (Nat.le_of_lt ht)]

theorem touchAt_append_last (cap : Int) (ops : List Op) (op : Op) (k : Int) {s : LRUCache}
    (hs : run cap ops = some s) :
    touchAt cap (ops ++ [op]) ops.length k = touches s op k := by
  simp only [touchAt, List.get?_eq_getElem?]
  rw [List.take_left' rfl, hs]
  simp

theorem touchAt_ge (cap : Int) (ops : List Op) {t : Nat} (k : Int) (ht : ops.length ≤ t) :
    touchAt cap ops t k = false := by
  simp only [touchAt, List.get?_eq_getElem?]
  rw [List.getElem?_eq_none ht]

theorem isLastTouch_lt {cap : Int} {ops : List Op} {k : Int} {t : Nat}
    (h : IsLastTouch cap ops k t) : t < ops.length := by
  by_contra hlt
  have := touchAt_ge cap ops k (not_lt.mp hlt)
  rw [h.1] at this
  exact absurd this (by simp)

theorem isLastTouch_unique {cap : Int} {ops : List Op} {k : Int} {t u : Nat}
    (ht : IsLastTouch cap ops k t) (hu : IsLastTouch cap ops k u) : t = u := by
  rcases Nat.lt_trichotomy t u with h | h | h
  · have := ht.2 u h (isLastTouch_lt hu)
    rw [hu.1] at this
    exact absurd this (by simp)
  · exact h
  · have := hu.2 t h (isLastTouch_lt ht)
    rw [ht.1] at this
    exact absurd this (by simp)

theorem isLastTouch_append_touched {cap : Int} {ops : List Op} {op : Op} {k : Int}
    {s : LRUCache} (hs : run cap ops = some s) (hto : touches s op k = true) (t : Nat) :
    IsLastTouch cap (ops ++ [op]) k t ↔ t = ops.length := by
  constructor
  · intro h
    have hlt := isLastTouch_lt h
    simp only [List.length_append, List.length_singleton] at hlt
    by_contra hne
    have := h.2 ops.length (by omega) (by simp)
    rw [touchAt_append_last cap ops op k hs, hto] at this
    exact absurd this (by simp)
  · rintro rfl
    refine ⟨by rw [touchAt_append_last cap ops op k hs, hto], fun u h1 h2 => ?_⟩
    simp only [List.length_append, List.length_singleton] at h2
    omega

theorem isLastTouch_append_untouched {cap : Int} {ops : List Op} {op : Op} {k : Int}
    {s : LRUCache} (hs : run cap ops = some s) (hto : touches s op k = false) (t : Nat) :
    IsLastTouch cap (ops ++ [op]) k t ↔ IsLastTouch cap ops k t := by
  constructor
  · intro h
    have hlt := isLastTouch_lt h
    simp only [List.length_append, List.length_singleton] at hlt
    have hne : t ≠ ops.length := by
      rintro rfl
      have := h.1
      rw [touchAt_append_last cap ops op k hs, hto] at this
      exact absurd this (by simp)
    have hlt2 : t < ops.length := by omega
    refine ⟨by rw [← touchAt_append_lt cap ops op k hlt2]; exact h.1, fun u h1 h2 => ?_⟩
    rw [← touchAt_append_lt cap ops op k h2]
    exact h.2 u h1 (by simp; omega)
  · intro h
    have hlt := isLastTouch_lt h
    refine ⟨by rw [touchAt_append_lt cap ops op k hlt]; exact h.1, fun u h1 h2 => ?_⟩
    simp only [List.length_append, List.length_singleton] at h2
    by_cases hu : u = ops.length
    · rw [hu, touchAt_append_last cap ops op k hs, hto]
    · rw [touchAt_append_lt cap ops op k (by omega)]
      exact h.2 u h1 (by omega)

/-- After a call the list is either unchanged (a miss) or the key of the call followed by a
sublist of the old list. -/
theorem mStep_shape (cap : Int) {l : List (Int × Int)} (hnd : (l.map Prod.fst).Nodup)
    (op : Op) :
    (mStep cap l op = l ∧ ∃ k, op = .get k ∧ k ∉ l.map Prod.fst) ∨
    (∃ k w R, mStep cap l op = (k, w) :: R ∧ List.Sublist (R.map Prod.fst) (l.map Prod.fst) ∧
      k ∉ R.map Prod.fst ∧ ((op = .get k ∧ k ∈ l.map Prod.fst) ∨ ∃ u, op = .put k u)) := by
  rcases mStep_cases cap hnd op with ⟨k, e1, hk, e⟩ | ⟨k, v, A, B, ho, e, hk, w, e1, -⟩ |
    ⟨k, v, e1, hk, -, e⟩ | ⟨k, v, e1, hk, -, e⟩
  · exact Or.inl ⟨e, k, e1, hk⟩
  · refine Or.inr ⟨k, w, A ++ B, e1, ?_, hk, ?_⟩
    · rw [e]
      exact List.Sublist.map _ (List.Sublist.append (List.Sublist.refl A)
        (List.sublist_cons_self _ B))
    · rcases ho with ho | ho
      · exact Or.inl ⟨ho, by rw [e]; simp⟩
      · exact Or.inr ho
  · exact Or.inr ⟨k, v, l, e, List.Sublist.refl _, hk, Or.inr ⟨v, e1⟩⟩
  · refine Or.inr ⟨k, v, l.dropLast, e, List.Sublist.map _ (List.dropLast_sublist l), ?_,
      Or.inr ⟨v, e1⟩⟩
    exact fun h => hk ((List.Sublist.map _ (List.dropLast_sublist l)).subset h)

theorem touches_get_miss {s : LRUCache} {l : List (Int × Int)} (ha : Abs s l) {k : Int}
    (hk : k ∉ l.map Prod.fst) (j : Int) : touches s (.get k) j = false := by
  by_cases hj : k = j
  · subst hj
    simp [touches, (abs_cached_false ha k).2 hk]
  · simp [touches, hj]

theorem touches_front {s : LRUCache} {l : List (Int × Int)} (ha : Abs s l) {op : Op} {k : Int}
    (ho : (op = .get k ∧ k ∈ l.map Prod.fst) ∨ ∃ u, op = .put k u) (j : Int) :
    touches s op j = true ↔ j = k := by
  rcases ho with ⟨rfl, hk⟩ | ⟨u, rfl⟩
  · by_cases hj : k = j
    · subst hj
      simp [touches, (abs_cached ha k).2 hk]
    · have hj2 : ¬ j = k := fun e => hj e.symm
      simp [touches, hj, hj2]
  · simp [touches, eq_comm]

theorem recency_run (cap : Int) (ops : List Op) :
    Recency cap ops ((mRun cap ops).map Prod.fst) := by
  induction ops using List.reverseRecOn with
  | nil => exact ⟨by simp [mRun], by simp [mRun]⟩
  | append_singleton ops op ih =>
    obtain ⟨s, hs, ha, -⟩ := abs_run cap ops
    rw [mRun_append]
    rcases mStep_shape cap (abs_nodup ha) op with ⟨e, k, rfl, hk⟩ | ⟨k, w, R, e, hsub, hkR, ho⟩
    · rw [e]
      have hun := fun j t => isLastTouch_append_untouched (t := t) hs (touches_get_miss ha hk j)
      refine ⟨fun j hj => ?_, ih.2.imp ?_⟩
      · obtain ⟨t, ht⟩ := ih.1 j hj
        exact ⟨t, (hun j t).2 ht⟩
      · intro a b hab ta tb hta htb
        exact hab ta tb ((hun a ta).1 hta) ((hun b tb).1 htb)
    · rw [e]
      have htk : touches s op k = true := (touches_front ha ho k).2 rfl
      have hun : ∀ j ∈ R.map Prod.fst, ∀ t,
          IsLastTouch cap (ops ++ [op]) j t ↔ IsLastTouch cap ops j t := by
        intro j hj t
        apply isLastTouch_append_untouched hs
        have hne : j ≠ k := fun e => hkR (e ▸ hj)
        cases h : touches s op j with
        | false => rfl
        | true => exact absurd ((touches_front ha ho j).1 h) hne
      refine ⟨?_, ?_⟩
      · intro j hj
        simp only [List.map_cons, List.mem_cons] at hj
        rcases hj with rfl | hj
        · exact ⟨ops.length, (isLastTouch_append_touched hs htk _).2 rfl⟩
        · obtain ⟨t, ht⟩ := ih.1 j (hsub.subset hj)
          exact ⟨t, (hun j hj t).2 ht⟩
      · simp only [List.map_cons, List.pairwise_cons]
        refine ⟨fun b hb ta tb hta htb => ?_, ?_⟩
        · rw [(isLastTouch_append_touched hs htk ta).1 hta]
          exact isLastTouch_lt ((hun b hb tb).1 htb)
        · refine (ih.2.sublist hsub).imp_of_mem ?_
          intro a b ha1 hb1 hab ta tb hta htb
          exact hab ta tb ((hun a ha1 ta).1 hta) ((hun b hb1 tb).1 htb)

/-- While `k1` is neither touched nor evicted it stays cached and never gets ahead of `k`. -/
theorem untouched_stays {k k1 : Int} (mid : List Op) :
    ∀ (s : LRUCache) (l : List (Int × Int)), Abs s l → k1 ∈ l.map Prod.fst →
      (l.map Prod.fst).Pairwise (fun x y => ¬ (x = k1 ∧ y = k)) →
      touchedOrEvicted s mid k1 = false →
      ∃ s2 l2, runFrom s mid = some s2 ∧ Abs s2 l2 ∧ k1 ∈ l2.map Prod.fst ∧
        (l2.map Prod.fst).Pairwise (fun x y => ¬ (x = k1 ∧ y = k)) := by
  induction mid with
  | nil =>
    intro s l ha hk hp _
    exact ⟨s, l, rfl, ha, hk, hp⟩
  | cons op mid ih =>
    intro s l ha hk hp hte
    obtain ⟨s1, r, e1, a1, -⟩ := abs_step ha op
    simp only [touchedOrEvicted, e1, Bool.or_eq_false_iff, Bool.and_eq_false_imp,
      Bool.not_eq_eq_eq_not, Bool.not_true] at hte
    obtain ⟨hto, hev, hrest⟩ := hte
    have hc1 : cached s1 k1 = true := by
      have := hev ((abs_cached ha k1).2 hk)
      cases h : cached s1 k1 with
      | true => rfl
      | false => rw [h] at this; exact absurd this (by simp)
    have hk1 := (abs_cached a1 k1).1 hc1
    have hp1 : ((mStep s.capacity l op).map Prod.fst).Pairwise
        (fun x y => ¬ (x = k1 ∧ y = k)) := by
      rcases mStep_shape s.capacity (abs_nodup ha) op with ⟨e, -⟩ | ⟨j, w, R, e, hsub, -, ho⟩
      · rw [e]; exact hp
      · rw [e]
        simp only [List.map_cons, List.pairwise_cons]
        refine ⟨fun y _ h => ?_, hp.sublist hsub⟩
        have := (touches_front ha ho k1).2 h.1.symm
        rw [hto] at this
        exact absurd this (by simp)
    obtain ⟨s2, l2, e2, a2, hk2, hp2⟩ := ih s1 _ a1 hk1 hp1 hrest
    exact ⟨s2, l2, by simp [runFrom, e1, e2], a2, hk2, hp2⟩

/-! ## Values -/

theorem lastPut_append_get (ops : List Op) (j k : Int) :
    lastPut (ops ++ [.get j]) k = lastPut ops k := by
  induction ops with
  | nil => simp [lastPut]
  | cons o ops ih =>
    cases o with
    | get i => simpa [lastPut] using ih
    | put i w => simp [lastPut, ih]

theorem lastPut_append_put (ops : List Op) (j v k : Int) :
    lastPut (ops ++ [.put j v]) k = if j = k then some v else lastPut ops k := by
  induction ops with
  | nil => simp [lastPut]
  | cons o ops ih =>
    cases o with
    | get i => simpa [lastPut] using ih
    | put i w =>
      rw [List.cons_append]
      simp only [lastPut]
      rw [ih]
      by_cases hj : j = k
      · simp [hj]
      · simp [hj]

theorem lastPut_run (cap : Int) (ops : List Op) :
    ∀ e ∈ mRun cap ops, lastPut ops e.1 = some e.2 := by
  induction ops using List.reverseRecOn with
  | nil => simp [mRun]
  | append_singleton ops op ih =>
    rw [mRun_append]
    rcases mStep_cases cap (mRun_nodup cap ops) op with ⟨k, rfl, -, e⟩ |
      ⟨k, v, A, B, ho, e, hk, w, e1, hg, hp⟩ | ⟨k, v, rfl, hk, -, e⟩ | ⟨k, v, rfl, hk, -, e⟩
    · rw [e]
      intro x hx
      rw [lastPut_append_get]
      exact ih x hx
    · rw [e1]
      intro x hx
      rcases List.mem_cons.mp hx with rfl | hx
      · rcases ho with rfl | ⟨u, rfl⟩
        · rw [lastPut_append_get, hg rfl]
          exact ih (k, v) (by rw [e]; simp)
        · rw [lastPut_append_put, if_pos rfl, hp u rfl]
      · have hxk : k ≠ x.1 := fun h => hk (h ▸ List.mem_map_of_mem Prod.fst hx)
        have hxl : x ∈ mRun cap ops := by
          rw [e]
          simp only [List.mem_append, List.mem_cons] at hx ⊢
          tauto
        rcases ho with rfl | ⟨u, rfl⟩
        · rw [lastPut_append_get]
          exact ih x hxl
        · rw [lastPut_append_put, if_neg hxk]
          exact ih x hxl
    · rw [e]
      intro x hx
      rw [lastPut_append_put]
      rcases List.mem_cons.mp hx with rfl | hx
      · simp
      · have hxk : k ≠ x.1 := fun h => hk (h ▸ List.mem_map_of_mem Prod.fst hx)
        rw [if_neg hxk]
        exact ih x hx
    · rw [e]
      intro x hx
      rw [lastPut_append_put]
      rcases List.mem_cons.mp hx with rfl | hx
      · simp
      · have hxl := (List.dropLast_sublist _).subset hx
        have hxk : k ≠ x.1 := fun h => hk (h ▸ List.mem_map_of_mem Prod.fst hxl)
        rw [if_neg hxk]
        exact ih x hxl

theorem mLookup_mem {l : List (Int × Int)} {k v : Int} (h : mLookup l k = some v) :
    (k, v) ∈ l := by
  induction l with
  | nil => simp [mLookup] at h
  | cons e l ih =>
    obtain ⟨j, w⟩ := e
    by_cases hj : j = k
    · simp only [mLookup, if_pos hj, Option.some.injEq] at h
      simp [hj, h]
    · simp only [mLookup, if_neg hj] at h
      exact List.mem_cons_of_mem _ (ih h)

theorem mPut_head (cap : Int) (l : List (Int × Int)) (k v : Int) :
    ∃ R, mPut cap l k v = (k, v) :: R := by
  unfold mPut
  cases mLookup l k with
  | none => exact ⟨_, rfl⟩
  | some w => exact ⟨_, rfl⟩

theorem mGet_head (R : List (Int × Int)) (k v : Int) : (mGet ((k, v) :: R) k).1 = v := by
  simp [mGet, mLookup]

/-! ## Frame properties -/

theorem mLookup_mRemove (l : List (Int × Int)) {j k : Int} (h : j ≠ k) :
    mLookup (mRemove l k) j = mLookup l j := by
  induction l with
  | nil => rfl
  | cons e l ih =>
    obtain ⟨i, w⟩ := e
    simp only [mRemove] at ih ⊢
    by_cases hi : i = k
    · rw [List.filter_cons_of_neg (by simpa using hi), ih]
      have hij : ¬ i = j := fun e => h (e.symm.trans hi)
      simp [mLookup, hij]
    · rw [List.filter_cons_of_pos (by simpa using hi)]
      simp only [mLookup, ih]

theorem mLookup_mGet (l : List (Int × Int)) (k j : Int) :
    mLookup (mGet l k).2 j = mLookup l j := by
  cases hl : mLookup l k with
  | none => simp [mGet, hl]
  | some v =>
    simp only [mGet, hl, mLookup]
    by_cases hj : k = j
    · rw [if_pos hj, ← hj, hl]
    · rw [if_neg hj]
      exact mLookup_mRemove l (fun e => hj e.symm)

theorem cached_congr {s s1 : LRUCache} (h : s1.cache = s.cache) (j : Int) :
    cached s1 j = cached s j := by
  simp [cached, h]

theorem cached_eq_of_mem_iff {s s1 : LRUCache} {l l1 : List (Int × Int)} (ha : Abs s l)
    (ha1 : Abs s1 l1) (j : Int) (h : j ∈ l1.map Prod.fst ↔ j ∈ l.map Prod.fst) :
    cached s1 j = cached s j := by
  have h1 := abs_cached ha1 j
  have h0 := abs_cached ha j
  cases hc1 : cached s1 j <;> cases hc0 : cached s j <;> simp_all

/-! ## Moving the front node -/

theorem heap_ext {h h1 : Heap} (hl : h.length = h1.length)
    (hr : ∀ a, readNode h (some a) = readNode h1 (some a)) : h = h1 := by
  apply List.ext_getElem hl
  intro n hn hn1
  have := hr n
  simp only [readNode, List.getD_eq_getElem?_getD, List.getElem?_eq_getElem hn,
    List.getElem?_eq_getElem hn1, Option.getD_some] at this
  exact this

theorem seg_read_eq {h h1 : Heap} {cs : List Cell} {p n : Ptr} (hs : Seg h p cs n)
    (hs1 : Seg h1 p cs n) : ∀ c ∈ cs, readNode h (some c.addr) = readNode h1 (some c.addr) := by
  induction cs generalizing p with
  | nil => simp
  | cons d cs ih =>
    simp only [seg_cons] at hs hs1
    intro c hc
    rcases List.mem_cons.mp hc with rfl | hc
    · rw [hs.1, hs1.1]
    · exact ih hs.2 hs1.2 c hc

/-- Moving the node that is already at the front puts every link back as it was. -/
theorem rep_moveToFront_front {s : LRUCache} {B : List Cell} {x : Cell}
    (hr : Rep s (x :: B)) : moveToFront s.heap s.head (some x.addr) = some s.heap := by
  have hseg : Seg s.heap none ([headCell] ++ x :: (B ++ [tailCell])) none := by
    simpa using hr.seg
  have hnd : (([headCell] ++ x :: (B ++ [tailCell])).map Cell.addr).Nodup := by
    simpa using hr.nodup_addr
  obtain ⟨h1, e1, s1, l1, f1⟩ := seg_remove hseg (by simp) (by simp) hnd
  obtain ⟨hxn, hnd1⟩ := nodup_middle Cell.addr hnd
  obtain ⟨q, r, hx⟩ := seg_read hseg (c := x) (by simp)
  have hx1 : readNode h1 (some x.addr) = some ⟨x.key, x.value, q, r⟩ := by
    rw [f1 _ hxn, hx]
  have s1c : Seg h1 none (headCell :: (B ++ [tailCell])) none := by simpa using s1
  have hnd1c : ((headCell :: (B ++ [tailCell])).map Cell.addr).Nodup := by
    simpa using hnd1
  have hxnc : x.addr ∉ (headCell :: (B ++ [tailCell])).map Cell.addr := by
    simpa using hxn
  obtain ⟨h2, e2, s2, l2, f2⟩ := seg_addFront_ne s1c (by simp) hnd1c hx1 hxnc
  have e2c : addToFront h1 (some 0) (some x.addr) = some h2 := e2
  have s2c : Seg h2 none (headCell :: (x :: B ++ [tailCell])) none := s2
  have heq : h2 = s.heap := by
    apply heap_ext (by rw [l2, l1])
    intro a
    by_cases ha : a ∈ (headCell :: (x :: B ++ [tailCell])).map Cell.addr
    · obtain ⟨c, hc, rfl⟩ := List.mem_map.mp ha
      exact seg_read_eq s2c hr.seg c hc
    · rw [f2 a ha, f1 a]
      intro hm
      apply ha
      simp only [List.map_cons, List.map_append, List.map_nil, List.cons_append, List.nil_append,
        List.mem_cons, List.mem_append, List.mem_singleton] at hm ⊢
      tauto
  have hm : moveToFront s.heap s.head (some x.addr) = some h2 := by
    simp [moveToFront, e1, hr.head_eq, e2c]
  rw [hm, heq]

theorem rep_get_front {s : LRUCache} {B : List Cell} {x : Cell} (hr : Rep s (x :: B)) :
    get s x.key = some (x.value, s) := by
  have hfind : mapFind s.cache x.key = some (some x.addr) :=
    (hr.find _ _).2 ⟨x, by simp, rfl, rfl⟩
  obtain ⟨q, r, hx⟩ := rep_read hr (c := x) (by simp)
  simp [get, hfind, rep_moveToFront_front hr, getValue, hx]

theorem abs_get_front {s : LRUCache} {R : List (Int × Int)} {k v : Int}
    (ha : Abs s ((k, v) :: R)) : get s k = some (v, s) := by
  obtain ⟨live, hr, hl⟩ := ha
  cases live with
  | nil => simp at hl
  | cons x B =>
    simp only [List.map_cons, List.cons.injEq, Cell.kv, Prod.mk.injEq] at hl
    obtain ⟨⟨rfl, rfl⟩, -⟩ := hl
    exact rep_get_front hr

theorem abs_gets {s : LRUCache} {l : List (Int × Int)} (ha : Abs s l) (gs : List Int) :
    ∃ s2 l2, runFrom s (gs.map Op.get) = some s2 ∧ Abs s2 l2 ∧ s2.cache = s.cache ∧
      ∀ j, mLookup l2 j = mLookup l j := by
  induction gs generalizing s l with
  | nil => exact ⟨s, l, rfl, ha, rfl, fun _ => rfl⟩
  | cons g gs ih =>
    obtain ⟨s1, e1, a1, -, c1⟩ := abs_get ha g
    obtain ⟨s2, l2, e2, a2, c2, h2⟩ := ih a1
    refine ⟨s2, l2, by simp [runFrom, step, e1, e2], a2, c2.trans c1, fun j => ?_⟩
    rw [h2, mLookup_mGet]

/-! ## The chain of `next` and `prev` links -/

theorem seg_follow {h : Heap} {cs : List Cell} {p n : Ptr} (hs : Seg h p cs n) {i : Nat}
    {c : Cell} (hi : cs[i]? = some c) : follow h i (firstPtr cs n) = some (some c.addr) := by
  induction cs generalizing p i with
  | nil => simp at hi
  | cons d cs ih =>
    simp only [seg_cons] at hs
    cases i with
    | zero =>
      simp only [List.getElem?_cons_zero, Option.some.injEq] at hi
      subst hi
      rfl
    | succ j =>
      simp only [List.getElem?_cons_succ] at hi
      simp only [firstPtr_cons, follow, getNext, hs.1, Option.map_some', Option.some_bind]
      exact ih hs.2 hi

theorem seg_links {h : Heap} {cs : List Cell} {p n : Ptr} (hs : Seg h p cs n) {i : Nat}
    {c d : Cell} (hi : cs[i]? = some c) (hj : cs[i + 1]? = some d) :
    getNext h (some c.addr) = some (some d.addr) ∧
      getPrev h (some d.addr) = some (some c.addr) := by
  induction cs generalizing p i with
  | nil => simp at hi
  | cons e cs ih =>
    simp only [seg_cons] at hs
    cases i with
    | zero =>
      simp only [List.getElem?_cons_zero, Option.some.injEq] at hi
      subst hi
      simp only [List.getElem?_cons_succ] at hj
      cases cs with
      | nil => simp at hj
      | cons f cs =>
        simp only [List.getElem?_cons_zero, Option.some.injEq] at hj
        subst hj
        simp only [seg_cons, firstPtr_cons] at hs
        simp [getNext, getPrev, hs.1, hs.2.1]
    | succ j =>
      simp only [List.getElem?_cons_succ] at hi hj
      exact ih hs.2 hi hj

/-! ## Well-linked lists -/

theorem rep_wellLinked {s : LRUCache} {live : List Cell} (hr : Rep s live) :
    WellLinked s.heap headCell tailCell live := ⟨hr.seg, hr.nodup_addr⟩

theorem walk_seg_cell {h : Heap} {cs : List Cell} {p : Ptr} {tl : Cell} {fuel : Nat}
    (hs : Seg h p (cs ++ [tl]) none) (hnd : tl.addr ∉ cs.map Cell.addr)
    (hfuel : cs.length < fuel) :
    walk h (some tl.addr) fuel (firstPtr (cs ++ [tl]) none) = some cs := by
  induction cs generalizing p fuel with
  | nil =>
    cases fuel with
    | zero => exact absurd hfuel (by simp)
    | succ n => simp [walk]
  | cons c cs ih =>
    cases fuel with
    | zero => exact absurd hfuel (by simp)
    | succ n =>
      simp only [List.cons_append, seg_cons] at hs
      simp only [List.map_cons, List.mem_cons, not_or] at hnd
      have hne : ¬ c.addr = tl.addr := fun e => hnd.1 e.symm
      have := ih hs.2 hnd.2 (by simpa using hfuel)
      simp only [firstPtr_append, firstPtr_cons, firstPtr_nil] at this
      simp [walk, hne, hs.1, this]

theorem wellLinked_length {h : Heap} {hd tl : Cell} {live : List Cell}
    (hw : WellLinked h hd tl live) : live.length + 2 ≤ h.length := by
  have hsub : (hd :: (live ++ [tl])).map Cell.addr ⊆ List.range h.length := by
    intro a ha
    obtain ⟨c, hc, rfl⟩ := List.mem_map.mp ha
    obtain ⟨q, r, hrd⟩ := seg_read hw.1 hc
    exact List.mem_range.mpr (readNode_lt hrd)
  have := (hw.2.subperm hsub).length_le
  simp only [List.map_cons, List.map_append, List.map_nil, List.length_cons, List.length_append,
    List.length_map, List.length_nil, List.length_range] at this
  omega

theorem wellLinked_chain {h : Heap} {hd tl : Cell} {live : List Cell}
    (hw : WellLinked h hd tl live) : chain h (some hd.addr) (some tl.addr) = some live := by
  have hseg := hw.1
  simp only [seg_cons] at hseg
  have hnd := hw.2
  simp only [List.map_cons, List.map_append, List.map_nil, List.nodup_cons, List.mem_append,
    List.mem_singleton, not_or, List.nodup_append] at hnd
  have htl : tl.addr ∉ live.map Cell.addr := fun hm => hnd.2.2.2 hm (by simp)
  have hw1 : walk h (some tl.addr) h.length (firstPtr (live ++ [tl]) none) = some live :=
    walk_seg_cell hseg.2 htl (by have := wellLinked_length hw; omega)
  simp only [chain, getNext, hseg.1, Option.map_some', Option.some_bind]
  exact hw1

theorem wellLinked_moveToFront {h : Heap} {hd tl x : Cell} {A B : List Cell}
    (hw : WellLinked h hd tl (A ++ x :: B)) :
    ∃ h1, moveToFront h (some hd.addr) (some x.addr) = some h1 ∧
      WellLinked h1 hd tl (x :: (A ++ B)) ∧ h1.length = h.length ∧ (A = [] → h1 = h) := by
  have hseg : Seg h none ((hd :: A) ++ x :: (B ++ [tl])) none := by
    simpa using hw.1
  have hnd : (((hd :: A) ++ x :: (B ++ [tl])).map Cell.addr).Nodup := by
    simpa using hw.2
  obtain ⟨h1, e1, s1, l1, f1⟩ := seg_remove hseg (by simp) (by simp) hnd
  obtain ⟨hxn, hnd1⟩ := nodup_middle Cell.addr hnd
  obtain ⟨q, r, hx⟩ := seg_read hseg (c := x) (by simp)
  have hx1 : readNode h1 (some x.addr) = some ⟨x.key, x.value, q, r⟩ := by
    rw [f1 _ hxn, hx]
  have s1c : Seg h1 none (hd :: (A ++ (B ++ [tl]))) none := by simpa using s1
  have hnd1c : ((hd :: (A ++ (B ++ [tl]))).map Cell.addr).Nodup := by
    simpa using hnd1
  have hxnc : x.addr ∉ (hd :: (A ++ (B ++ [tl]))).map Cell.addr := by
    simpa using hxn
  obtain ⟨h2, e2, s2, l2, f2⟩ := seg_addFront_ne s1c (by simp) hnd1c hx1 hxnc
  have s2c : Seg h2 none (hd :: ((x :: (A ++ B)) ++ [tl])) none := by simpa using s2
  have hperm : List.Perm (A ++ x :: B) (x :: (A ++ B)) := List.perm_middle
  have hnd2 : ((hd :: ((x :: (A ++ B)) ++ [tl])).map Cell.addr).Nodup := by
    have : List.Perm ((hd :: ((A ++ x :: B) ++ [tl])).map Cell.addr)
        ((hd :: ((x :: (A ++ B)) ++ [tl])).map Cell.addr) :=
      (((hperm.append_right _).cons _).map _)
    exact this.nodup_iff.mp hw.2
  refine ⟨h2, by simp [moveToFront, e1, e2], ⟨s2c, hnd2⟩, by rw [l2, l1], ?_⟩
  rintro rfl
  apply heap_ext (by rw [l2, l1])
  intro a
  by_cases ha : a ∈ (hd :: ((x :: ([] ++ B)) ++ [tl])).map Cell.addr
  · obtain ⟨c, hc, rfl⟩ := List.mem_map.mp ha
    exact seg_read_eq s2c hw.1 c hc
  · rw [f2 a (by simpa using ha), f1 a]
    intro hm
    apply ha
    simp only [List.map_cons, List.map_append, List.map_nil, List.cons_append, List.nil_append,
      List.mem_cons, List.mem_append, List.mem_singleton] at hm ⊢
    tauto

theorem wellLinked_popTail_nil {h : Heap} {hd tl : Cell} (hw : WellLinked h hd tl []) :
    popTail h (some hd.addr) (some tl.addr) = some (none, h) := by
  have := hw.1
  simp only [List.nil_append, seg_cons, firstPtr_cons, firstPtr_nil, seg_nil, and_true] at this
  simp [popTail, getPrev, this.2]

theorem wellLinked_popTail {h : Heap} {hd tl x : Cell} {A : List Cell}
    (hw : WellLinked h hd tl (A ++ [x])) :
    ∃ h1, popTail h (some hd.addr) (some tl.addr) = some (some x.addr, h1) ∧
      WellLinked h1 hd tl A ∧ getPrev h (some tl.addr) = some (some x.addr) := by
  have hseg : Seg h none ((hd :: A) ++ x :: [tl]) none := by
    simpa using hw.1
  have hnd : (((hd :: A) ++ x :: [tl]).map Cell.addr).Nodup := by
    simpa using hw.2
  have htl : readNode h (some tl.addr) = some ⟨tl.key, tl.value, some x.addr, none⟩ := by
    have := hseg
    simp only [seg_append, seg_cons, firstPtr_cons, firstPtr_nil, lastPtr_cons, lastPtr_nil,
      seg_nil, and_true] at this
    exact this.2.2
  obtain ⟨h1, e1, s1, l1, f1⟩ := seg_remove hseg (by simp) (by simp) hnd
  obtain ⟨hxn, hnd1⟩ := nodup_middle Cell.addr hnd
  have hx0 : ¬ x.addr = hd.addr := by
    intro e
    apply hxn
    rw [e]
    simp
  refine ⟨h1, ?_, ⟨by simpa using s1, by simpa using hnd1⟩, by simp [getPrev, htl]⟩
  simp [popTail, getPrev, htl, hx0, e1]

/-! ## The reference model -/

theorem find_eq_mLookup (l : List (Int × Int)) (k : Int) :
    (l.find? fun e => e.1 == k) = (mLookup l k).map fun v => (k, v) := by
  induction l with
  | nil => rfl
  | cons e l ih =>
    obtain ⟨j, w⟩ := e
    by_cases hj : j = k
    · subst hj
      simp [List.find?, mLookup]
    · rw [List.find?_cons_of_neg _ (by simpa using hj), ih]
      simp [mLookup, hj]

theorem filter_eq_mRemove (l : List (Int × Int)) (k : Int) :
    (l.filter fun d => d.1 != k) = mRemove l k := by
  simp only [mRemove]
  congr 1
  funext d
  by_cases h : d.1 = k <;> simp [h]

theorem specGet_eq (l : List (Int × Int)) (k : Int) : specGet l k = mGet l k := by
  simp only [specGet, mGet, find_eq_mLookup, filter_eq_mRemove]
  cases mLookup l k <;> rfl

theorem specPut_eq {c : Int} {l : List (Int × Int)} (hl : (l.length : Int) ≤ 2147483647)
    (k v : Int) : specPut c l k v = mPut c l k v := by
  simp only [specPut, mPut, filter_eq_mRemove, toInt32_of_le hl]
  cases h : mLookup l k with
  | none => simp [mLookup_eq_none.mp h]
  | some w => simp [List.mem_map_of_mem Prod.fst (mLookup_mem h)]

theorem abs_trace {c : Int} (h1 : 1 ≤ c) (h2 : c ≤ 2147483647) (ops : List Op) :
    ∀ (s : LRUCache) (l : List (Int × Int)), Abs s l → s.capacity = c → (l.length : Int) ≤ c →
      ∃ rs s1, runTrace s ops = some (rs, s1) ∧ rs = (specTrace c l ops).1 ∧
        Abs s1 (specTrace c l ops).2 := by
  induction ops with
  | nil =>
    intro s l ha _ _
    exact ⟨[], s, rfl, rfl, ha⟩
  | cons op ops ih =>
    intro s l ha hc hl
    have hstep : ∃ s1, step s op = some (s1, (specStep c l op).2) ∧
        Abs s1 (specStep c l op).1 ∧ s1.capacity = c ∧
        (specStep c l op).1 = mStep c l op := by
      cases op with
      | get k =>
        obtain ⟨s1, e1, a1, c1, -⟩ := abs_get ha k
        refine ⟨s1, ?_, ?_, c1.trans hc, ?_⟩
        · simp [step, e1, specStep, specGet_eq]
        · simpa [specStep, specGet_eq] using a1
        · simp [specStep, specGet_eq, mStep]
      | put k v =>
        obtain ⟨s1, e1, a1, c1⟩ := abs_put ha k v
        rw [hc] at a1
        refine ⟨s1, ?_, ?_, c1.trans hc, ?_⟩
        · simp [step, e1, specStep]
        · simpa [specStep, specPut_eq (le_trans hl h2)] using a1
        · simp [specStep, specPut_eq (le_trans hl h2), mStep]
    obtain ⟨s1, e1, a1, c1, hm⟩ := hstep
    have hl1 : (((specStep c l op).1).length : Int) ≤ c := by
      rw [hm]
      exact mStep_length_le h1 h2 (abs_nodup ha) hl op
    obtain ⟨rs, s2, e2, hrs, a2⟩ := ih s1 _ a1 c1 hl1
    refine ⟨_, s2, ?_, rfl, a2⟩
    simp [runTrace, e1, e2, specTrace, hrs]

/-! ## Caches of non-positive capacity -/

theorem putKeys_append (a b : List Op) : putKeys (a ++ b) = putKeys a ++ putKeys b := by
  induction a with
  | nil => rfl
  | cons o a ih =>
    cases o with
    | get k => simpa [putKeys] using ih
    | put k v => simp [putKeys, ih]

theorem dedup_length_mono {a b : List Int} (h : a ⊆ b) : a.dedup.length ≤ b.dedup.length := by
  apply List.Subperm.length_le
  apply (List.nodup_dedup a).subperm
  intro x hx
  exact List.mem_dedup.mpr (h (List.mem_dedup.mp hx))

theorem length_eq_dedup {l : List (Int × Int)} {ks : List Int} (hnd : (l.map Prod.fst).Nodup)
    (h : ∀ k, k ∈ l.map Prod.fst ↔ k ∈ ks) : l.length = ks.dedup.length := by
  have hp : List.Perm (l.map Prod.fst) ks.dedup := by
    rw [List.perm_ext_iff_of_nodup hnd (List.nodup_dedup ks)]
    intro k
    rw [h k, List.mem_dedup]
  simpa using hp.length_eq

/-- While fewer than 2^31 distinct keys have been put into a cache of capacity at most 0, the
list model holds exactly the keys that have been put. -/
theorem mRun_keys_nonpos {cap : Int} (hc : cap ≤ 0) (ops : List Op) :
    ((putKeys ops).dedup.length : Int) < 2147483648 →
      ∀ k, k ∈ (mRun cap ops).map Prod.fst ↔ k ∈ putKeys ops := by
  induction ops using List.reverseRecOn with
  | nil =>
    intro _ k
    simp [mRun, putKeys]
  | append_singleton ops op ih =>
    intro hn k
    have hmono : (putKeys ops).dedup.length ≤ (putKeys (ops ++ [op])).dedup.length := by
      apply dedup_length_mono
      rw [putKeys_append]
      exact List.subset_append_left _ _
    have hn0 : ((putKeys ops).dedup.length : Int) < 2147483648 := by omega
    have ih1 := ih hn0
    have hnd := mRun_nodup cap ops
    have hlen := length_eq_dedup hnd ih1
    rw [mRun_append, putKeys_append]
    rcases mStep_cases cap hnd op with ⟨j, rfl, hj, e⟩ |
      ⟨j, v, A, B, ho, e, hj, w, e1, -, -⟩ | ⟨j, v, rfl, hj, -, e⟩ | ⟨j, v, rfl, hj, heq, e⟩
    · rw [e, ih1 k]
      simp [putKeys]
    · rw [e1]
      have hkl := ih1 k
      have hjl := ih1 j
      rw [e] at hkl hjl
      simp only [List.map_cons, List.map_append, List.mem_cons, List.mem_append] at hkl hjl ⊢
      rcases ho with rfl | ⟨u, rfl⟩
      · simp only [putKeys, List.not_mem_nil, or_false]
        rw [← hkl]
        clear hn hn0 hlen hmono ih
        tauto
      · simp only [putKeys, List.mem_singleton]
        rw [← hkl]
        clear hn hn0 hlen hmono ih
        tauto
    · rw [e]
      simp only [List.map_cons, List.mem_cons, List.mem_append, putKeys, List.mem_singleton]
      rw [ih1 k]
      clear hn hn0 hlen hmono ih
      tauto
    · have hl0 : (mRun cap ops).length = 0 := by
        rw [toInt32_of_le (by omega)] at heq
        omega
      have hnil : mRun cap ops = [] := List.length_eq_zero.mp hl0
      rw [e]
      have := ih1 k
      rw [hnil] at this ⊢
      simp only [List.dropLast_nil, List.map_cons, List.map_nil, List.mem_cons, List.mem_append,
        putKeys, List.mem_singleton, List.not_mem_nil, or_false, false_iff] at this ⊢
      clear hn hn0 hlen hmono heq hl0 ih
      tauto

/-! ## A cache of capacity `INT_MIN` -/

theorem fillOps_succ (n : Nat) : fillOps (n + 1) = fillOps n ++ [Op.put ((n : Int) - 1) 0] := by
  simp [fillOps, List.range_succ]

/-- As long as no size on the way converts to the capacity, `fillOps` fills the model with all
its keys, the latest first. -/
theorem mRun_fillOps (cap : Int) (n : Nat) (h : ∀ m, m < n → toInt32 m ≠ cap) :
    mRun cap (fillOps n) = ((List.range n).map fun (i : Nat) => ((i : Int) - 1, (0 : Int))).reverse := by
  induction n with
  | zero => rfl
  | succ n ih =>
    have ih1 := ih fun m hm => h m (Nat.lt_succ_of_lt hm)
    rw [fillOps_succ, mRun_append, ih1]
    have hlen : (((List.range n).map fun (i : Nat) => ((i : Int) - 1, (0 : Int))).reverse).length = n := by
      simp
    have hnone : mLookup (((List.range n).map fun (i : Nat) => ((i : Int) - 1, (0 : Int))).reverse)
        ((n : Int) - 1) = none := by
      rw [mLookup_eq_none]
      simp only [List.map_reverse, List.map_map, List.mem_reverse, List.mem_map, List.mem_range,
        Function.comp_def, not_exists, not_and]
      intro i hi e
      omega
    simp only [mStep, mPut, hnone, hlen, if_neg (h n (Nat.lt_succ_self n))]
    simp [List.range_succ]

theorem mRun_fillOps_full (cap : Int) (n : Nat) (h : ∀ m, m < n + 1 → toInt32 m ≠ cap)
    (hfull : toInt32 (n + 1) = cap) :
    mRun cap (fillOps (n + 1 + 1)) =
      (((n : Int) + 1 - 1, (0 : Int)) ::
        ((List.range n).map fun (i : Nat) => (((i + 1 : Nat) : Int) - 1, (0 : Int))).reverse) := by
  rw [fillOps_succ, mRun_append, mRun_fillOps cap (n + 1) h]
  have hlen : (((List.range (n + 1)).map fun (i : Nat) => ((i : Int) - 1, (0 : Int))).reverse).length
      = n + 1 := by simp
  have hnone : mLookup (((List.range (n + 1)).map fun (i : Nat) => ((i : Int) - 1, (0 : Int))).reverse)
      (((n + 1 : Nat) : Int) - 1) = none := by
    rw [mLookup_eq_none]
    simp only [List.map_reverse, List.map_map, List.mem_reverse, List.mem_map, List.mem_range,
      Function.comp_def, not_exists, not_and]
    intro i hi e
    omega
  simp only [mStep, mPut, hnone, hlen, hfull, if_true]
  rw [List.range_succ_eq_map]
  simp [Function.comp_def]

theorem putKeys_fillOps (n : Nat) : (-1 : Int) ∈ putKeys (fillOps (n + 1)) := by
  induction n with
  | zero => simp [fillOps, putKeys]
  | succ n ih =>
    rw [fillOps_succ, putKeys_append]
    exact List.mem_append_left _ ih

theorem fill_overflow (cap : Int) (n M N : Nat) (hM : M = n + 1) (hN : N = n + 1 + 1)
    (h : ∀ m, m < n + 1 → toInt32 m ≠ cap) (hfull : toInt32 (n + 1) = cap) :
    ∃ s, run cap (fillOps N) = some s ∧ cached s (-1) = false ∧ count s = M ∧
      (-1 : Int) ∈ putKeys (fillOps N) := by
  subst hM hN
  obtain ⟨s, hs, ha, -⟩ := abs_run cap (fillOps (n + 1 + 1))
  rw [mRun_fillOps_full cap n h hfull] at ha
  refine ⟨s, hs, ?_, ?_, putKeys_fillOps (n + 1)⟩
  · rw [abs_cached_false ha]
    simp only [List.map_cons, List.map_reverse, List.map_map, List.mem_cons, List.mem_reverse,
      List.mem_map, List.mem_range, Function.comp_def, not_or, not_exists, not_and]
    refine ⟨by omega, fun i _ e => ?_⟩
    omega
  · rw [abs_count ha]
    simp

/-! ## The claims -/

/-- Claim C1 (LRU eviction): on a cache of capacity `c ≥ 1` that a history `ops` has filled
(`count = c`), a `put` of a key that is not cached removes exactly one cached key `e`; every
other cached key stays and was last touched strictly later than `e`; and `e` is the only cached
key with that property. -/
theorem C1_lru_eviction (c : Int) (ops : List Op) (k v : Int) (s : LRUCache)
    (h1 : 1 ≤ c) (h2 : c ≤ 2147483647) (hs : run c ops = some s)
    (hfull : (count s : Int) = c) (hk : cached s k = false) :
    ∃ s1 e te, put s k v = some s1 ∧ cached s e = true ∧ cached s1 e = false ∧
      IsLastTouch c ops e te ∧
      (∀ j, j ≠ e → cached s j = true →
        cached s1 j = true ∧ ∃ tj, IsLastTouch c ops j tj ∧ te < tj) ∧
      (∀ e1, cached s e1 = true →
        (∀ j, j ≠ e1 → cached s j = true →
          ∃ t1 tj, IsLastTouch c ops e1 t1 ∧ IsLastTouch c ops j tj ∧ t1 < tj) → e1 = e) := by
  obtain ⟨s0, hs0, ha, hcap⟩ := abs_run c ops
  rw [hs] at hs0
  obtain rfl : s = s0 := Option.some.inj hs0
  have hrec := recency_run c ops
  have hnd := abs_nodup ha
  have hlen : ((mRun c ops).length : Int) = c := by rw [← abs_count ha]; exact hfull
  have hkl : k ∉ (mRun c ops).map Prod.fst := (abs_cached_false ha k).1 hk
  obtain ⟨s1, e1, a1, -⟩ := abs_put ha k v
  rcases List.eq_nil_or_concat (mRun c ops) with hnil | ⟨A, x, hl⟩
  · rw [hnil] at hlen
    simp only [List.length_nil, Nat.cast_zero] at hlen
    omega
  obtain ⟨e, ve⟩ := x
  have hput : mPut s.capacity (mRun c ops) k v = (k, v) :: A := by
    have hfull2 : toInt32 (mRun c ops).length = s.capacity := by
      rw [toInt32_of_le (by omega), hcap, hlen]
    simp only [mPut, mLookup_eq_none.mpr hkl, hfull2, if_true]
    rw [hl]
    simp
  rw [hput] at a1
  rw [hl] at hnd hrec hkl
  simp only [List.concat_eq_append, List.map_append, List.map_cons, List.map_nil] at hnd hrec hkl
  have heA : e ∉ A.map Prod.fst := by
    rw [List.nodup_append] at hnd
    exact fun h => hnd.2.2 h (by simp)
  have hke : k ≠ e := fun h => hkl (by simp [h])
  have hce : cached s e = true := by
    rw [abs_cached ha, hl]
    simp
  have hin : ∀ j, j ≠ e → cached s j = true → j ∈ A.map Prod.fst := by
    intro j hj hc
    rw [abs_cached ha, hl] at hc
    simp only [List.concat_eq_append, List.map_append, List.map_cons, List.map_nil,
      List.mem_append, List.mem_singleton] at hc
    rcases hc with hc | hc
    · exact hc
    · exact absurd hc hj
  obtain ⟨te, hte⟩ := hrec.1 e (by simp)
  have hpw := hrec.2
  rw [List.pairwise_append] at hpw
  have hlater : ∀ j, j ∈ A.map Prod.fst → ∃ tj, IsLastTouch c ops j tj ∧ te < tj := by
    intro j hj
    obtain ⟨tj, htj⟩ := hrec.1 j (by simp [hj])
    exact ⟨tj, htj, hpw.2.2 j hj e (by simp) tj te htj hte⟩
  refine ⟨s1, e, te, e1, hce, ?_, hte, fun j hj hc => ⟨?_, hlater j (hin j hj hc)⟩, ?_⟩
  · rw [abs_cached_false a1]
    simp only [List.map_cons, List.mem_cons, not_or]
    exact ⟨fun h => hke h.symm, heA⟩
  · rw [abs_cached a1]
    simp only [List.map_cons, List.mem_cons]
    exact Or.inr (hin j hj hc)
  · intro e2 hc2 hprop
    by_contra hne
    obtain ⟨t2, h2a, h2b⟩ := hlater e2 (hin e2 hne hc2)
    obtain ⟨t3, t4, h3, h4, hlt⟩ := hprop e (fun h => hne h.symm) hce
    rw [isLastTouch_unique h3 h2a, isLastTouch_unique h4 hte] at hlt
    omega

/-- Claim C1 at a concrete input: capacity 2 after `put(1,10)`, `put(2,20)`, `get(1)`, then
`put(3,30)`. -/
theorem C1_lru_eviction_witness :
    run 2 [.put 1 10, .put 2 20, .get 1] = some demoFull ∧ (count demoFull : Int) = 2 ∧
    cached demoFull 3 = false ∧
    ∃ s1 e te, put demoFull 3 30 = some s1 ∧ cached demoFull e = true ∧ cached s1 e = false ∧
      IsLastTouch 2 [.put 1 10, .put 2 20, .get 1] e te ∧
      (∀ j, j ≠ e → cached demoFull j = true →
        cached s1 j = true ∧ ∃ tj, IsLastTouch 2 [.put 1 10, .put 2 20, .get 1] j tj ∧ te < tj) ∧
      (∀ e1, cached demoFull e1 = true →
        (∀ j, j ≠ e1 → cached demoFull j = true →
          ∃ t1 tj, IsLastTouch 2 [.put 1 10, .put 2 20, .get 1] e1 t1 ∧
            IsLastTouch 2 [.put 1 10, .put 2 20, .get 1] j tj ∧ t1 < tj) → e1 = e) :=
  ⟨rfl, rfl, rfl,
    C1_lru_eviction 2 [.put 1 10, .put 2 20, .get 1] 3 30 demoFull (by decide) (by decide)
      rfl rfl rfl⟩

/-- Claim C2 (capacity invariant): on a cache of capacity `c` with `1 ≤ c` (and `c` an `int`),
every history of `get` and `put` calls runs to completion, and in the state it reaches the size
of the index equals the number of nodes between the sentinels and is at most `c`. -/
theorem C2_capacity_invariant (c : Int) (ops : List Op) (h1 : 1 ≤ c) (h2 : c ≤ 2147483647) :
    ∃ s live, run c ops = some s ∧ liveNodes s = some live ∧ live.length = count s ∧
      0 ≤ (count s : Int) ∧ (count s : Int) ≤ c := by
  obtain ⟨s, e, a, -⟩ := abs_run c ops
  obtain ⟨live, hr, hl⟩ := id a
  refine ⟨s, live, e, rep_liveNodes hr, hr.len.symm, Int.natCast_nonneg _, ?_⟩
  rw [abs_count a]
  exact mRun_length_le h1 h2 ops

/-- Claim C2 at a concrete input: capacity 2 and four calls, the last of which evicts. -/
theorem C2_capacity_invariant_witness :
    (1 : Int) ≤ 2 ∧ (2 : Int) ≤ 2147483647 ∧
    ∃ s live, run 2 [.put 1 10, .put 2 20, .get 1, .put 3 30] = some s ∧
      liveNodes s = some live ∧ live.length = count s ∧
      0 ≤ (count s : Int) ∧ (count s : Int) ≤ 2 :=
  ⟨by decide, by decide,
    C2_capacity_invariant 2 [.put 1 10, .put 2 20, .get 1, .put 3 30] (by decide) (by decide)⟩

/-- Claim C3 (bijection invariant): in every state reached from the constructor by `get` and
`put` calls, the index holds exactly the keys of the nodes strictly between the sentinels, no
key is held by two of these nodes, and the index maps a key to a pointer exactly when that
pointer is the address of the node holding the key. -/
theorem C3_bijection_invariant (cap : Int) (ops : List Op) :
    ∃ s live, run cap ops = some s ∧ liveNodes s = some live ∧
      (∀ k, cached s k = true ↔ k ∈ live.map Cell.key) ∧
      (live.map Cell.key).Nodup ∧
      (∀ k p, mapFind s.cache k = some p ↔ ∃ c ∈ live, c.key = k ∧ p = some c.addr) ∧
      (∀ c ∈ live, getKey s.heap (some c.addr) = some c.key) := by
  obtain ⟨s, e, a, -⟩ := abs_run cap ops
  obtain ⟨live, hr, hl⟩ := id a
  refine ⟨s, live, e, rep_liveNodes hr, fun k => ?_, hr.nodup_key, hr.find, fun c hc => ?_⟩
  · rw [abs_cached a k, ← hl, map_fst_kv]
  · obtain ⟨q, r, h⟩ := rep_read hr hc
    simp [getKey, h]

/-- Claim C4 (promotion on access): in a reachable state, a `get(k)` that hits and any
`put(k, v)` leave the node of `k` right after the head sentinel; and if, after any further
calls `mid`, a call removes `k` from the cache, then every other key that was cached right
after the access has been touched or evicted during `mid`. -/
theorem C4_promotion_on_access (cap : Int) (ops : List Op) (op : Op) (k : Int) (s : LRUCache)
    (hs : run cap ops = some s)
    (hop : (op = .get k ∧ cached s k = true) ∨ ∃ v, op = .put k v) :
    ∃ s1 r, step s op = some (s1, r) ∧ frontKey s1 = some k ∧
      ∀ (mid : List Op) (o : Op) (s2 s3 : LRUCache) (r3 : Option Int),
        runFrom s1 mid = some s2 → step s2 o = some (s3, r3) →
        cached s2 k = true → cached s3 k = false →
        ∀ k1, k1 ≠ k → cached s1 k1 = true → touchedOrEvicted s1 mid k1 = true := by
  obtain ⟨s0, hs0, ha, hcap⟩ := abs_run cap ops
  rw [hs] at hs0
  obtain rfl : s = s0 := Option.some.inj hs0
  obtain ⟨s1, r, e1, a1, c1⟩ := abs_step ha op
  have hop2 : (op = .get k ∧ k ∈ (mRun cap ops).map Prod.fst) ∨ ∃ u, op = .put k u := by
    rcases hop with ⟨h, hc⟩ | h
    · exact Or.inl ⟨h, (abs_cached ha k).1 hc⟩
    · exact Or.inr h
  obtain ⟨w, R, e, hkR⟩ : ∃ w R, mStep s.capacity (mRun cap ops) op = (k, w) :: R ∧
      k ∉ R.map Prod.fst := by
    rcases mStep_shape s.capacity (abs_nodup ha) op with ⟨-, j, rfl, hj⟩ | ⟨j, w, R, e, -, hjR, ho⟩
    · rcases hop2 with ⟨h, hk⟩ | ⟨u, h⟩
      · cases h
        exact absurd hk hj
      · cases h
    · have hjk : j = k := by
        rcases hop2 with ⟨rfl, -⟩ | ⟨u, rfl⟩ <;> rcases ho with ⟨h, -⟩ | ⟨u1, h⟩ <;> cases h <;> rfl
      subst hjk
      exact ⟨w, R, e, hjR⟩
  rw [e] at a1
  refine ⟨s1, r, e1, abs_frontKey a1, ?_⟩
  intro mid o s2 s3 r3 hrun hstep hck2 hck3 k1 hne hc1
  by_contra hte
  have hte : touchedOrEvicted s1 mid k1 = false := by
    cases h : touchedOrEvicted s1 mid k1 with
    | false => rfl
    | true => exact absurd h hte
  have hk1 : k1 ∈ ((k, w) :: R).map Prod.fst := (abs_cached a1 k1).1 hc1
  have hp1 : (((k, w) :: R).map Prod.fst).Pairwise (fun x y => ¬ (x = k1 ∧ y = k)) := by
    simp only [List.map_cons, List.pairwise_cons]
    refine ⟨fun y _ h => hne h.1.symm, List.pairwise_of_forall_mem_list ?_⟩
    intro x _ y hy h
    exact hkR (h.2 ▸ hy)
  obtain ⟨s2a, l2, e2, a2, hk2, hp2⟩ := untouched_stays mid s1 _ a1 hk1 hp1 hte
  rw [hrun] at e2
  obtain rfl : s2 = s2a := Option.some.inj e2
  obtain ⟨s3a, r3a, e3, a3, -⟩ := abs_step a2 o
  rw [hstep] at e3
  obtain rfl : s3 = s3a := (Prod.mk.inj (Option.some.inj e3)).1
  have hkl2 := (abs_cached a2 k).1 hck2
  have hkl3 := (abs_cached_false a3 k).1 hck3
  rcases mStep_cases s2.capacity (abs_nodup a2) o with ⟨j, -, -, e⟩ |
    ⟨j, v, A, B, -, e, -, w1, e4, -⟩ | ⟨j, v, -, -, -, e⟩ | ⟨j, v, -, hj, -, e⟩
  · rw [e] at hkl3
    exact hkl3 hkl2
  · rw [e4] at hkl3
    rw [e] at hkl2
    apply hkl3
    simp only [List.map_append, List.map_cons, List.mem_append, List.mem_cons] at hkl2 ⊢
    tauto
  · rw [e] at hkl3
    exact hkl3 (by simp [hkl2])
  · rw [e] at hkl3
    rcases List.eq_nil_or_concat l2 with hnil | ⟨D, x, hl⟩
    · rw [hnil] at hkl2
      simp at hkl2
    · rw [hl] at hkl2 hkl3 hk2 hp2
      simp only [List.concat_eq_append, List.dropLast_concat, List.map_cons, List.map_append,
        List.map_nil, List.mem_cons, List.mem_append, List.mem_singleton, not_or] at hkl2 hkl3 hk2 hp2
      have hxk : k = x.1 := by tauto
      have hk1D : k1 ∈ D.map Prod.fst := by
        rcases hk2 with h | h | h
        · exact h
        · exact absurd (h.trans hxk.symm) hne
        · simp at h
      rw [List.pairwise_append] at hp2
      exact hp2.2.2 k1 hk1D x.1 (by simp) ⟨rfl, hxk.symm⟩

/-- Claim C4 at a concrete input: capacity 2 after `put(1,10)`, `put(2,20)`, then the hit
`get(1)`. -/
theorem C4_promotion_on_access_witness :
    run 2 [.put 1 10, .put 2 20] = some demoTwo ∧ cached demoTwo 1 = true ∧
    ∃ s1 r, step demoTwo (.get 1) = some (s1, r) ∧ frontKey s1 = some 1 ∧
      ∀ (mid : List Op) (o : Op) (s2 s3 : LRUCache) (r3 : Option Int),
        runFrom s1 mid = some s2 → step s2 o = some (s3, r3) →
        cached s2 1 = true → cached s3 1 = false →
        ∀ k1, k1 ≠ 1 → cached s1 k1 = true → touchedOrEvicted s1 mid k1 = true :=
  ⟨rfl, rfl,
    C4_promotion_on_access 2 [.put 1 10, .put 2 20] (.get 1) 1 demoTwo rfl (Or.inl ⟨rfl, rfl⟩)⟩

/-- Claim C5 (stored value is the last value put): every history runs to a state in which, for
every cached key `k`, `get(k)` returns the value of the most recent `put(k, _)` of the history;
and in which `get(k)` right after `put(k, v)` returns `v`. -/
theorem C5_last_value_put (cap : Int) (ops : List Op) :
    ∃ s, run cap ops = some s ∧
      (∀ k, cached s k = true → ∃ v s1, lastPut ops k = some v ∧ get s k = some (v, s1)) ∧
      (∀ k v, ∃ s1 s2, put s k v = some s1 ∧ get s1 k = some (v, s2)) := by
  obtain ⟨s, hs, ha, -⟩ := abs_run cap ops
  refine ⟨s, hs, fun k hc => ?_, fun k v => ?_⟩
  · obtain ⟨v, hv⟩ := mLookup_isSome ((abs_cached ha k).1 hc)
    obtain ⟨s1, e1, -⟩ := abs_get ha k
    refine ⟨v, s1, lastPut_run cap ops (k, v) (mLookup_mem hv), ?_⟩
    rw [e1]
    simp [mGet, hv]
  · obtain ⟨s1, e1, a1, -⟩ := abs_put ha k v
    obtain ⟨R, hR⟩ := mPut_head s.capacity (mRun cap ops) k v
    rw [hR] at a1
    obtain ⟨s2, e2, -⟩ := abs_get a1 k
    rw [mGet_head] at e2
    exact ⟨s1, s2, e1, e2⟩

/-- Claim C6, as stated, fails: after `put(5, -1)` on a cache of capacity 1 the key 5 is cached,
yet `get(5)` returns -1, the very result a miss returns. -/
theorem C6_counterexample :
    ∃ s s1, run 1 [.put 5 (-1)] = some s ∧ cached s 5 = true ∧ get s 5 = some (-1, s1) ∧
      ¬ ((-1 : Int) = -1 ↔ cached s 5 = false) :=
  ⟨_, _, rfl, rfl, rfl, by decide⟩

/-- Claim C6, amended: in every reachable state `get(k)` returns -1 when `k` is not cached and
the stored value of `k` when it is; so it returns -1 exactly when `k` is not cached or the value
stored for `k` is -1. -/
theorem C6_get_hit_or_miss (cap : Int) (ops : List Op) (k : Int) :
    ∃ s r s1, run cap ops = some s ∧ get s k = some (r, s1) ∧
      (cached s k = false → r = -1) ∧
      (cached s k = true → stored s k = some r) ∧
      (r = -1 ↔ (cached s k = false ∨ stored s k = some (-1))) := by
  obtain ⟨s, hs, ha, -⟩ := abs_run cap ops
  obtain ⟨s1, e1, -⟩ := abs_get ha k
  refine ⟨s, _, s1, hs, e1, ?_⟩
  rw [abs_stored ha k]
  cases hl : mLookup (mRun cap ops) k with
  | none =>
    have hc := (abs_cached_false ha k).2 (mLookup_eq_none.mp hl)
    simp [mGet, hl, hc]
  | some v =>
    have hc := (abs_cached ha k).2 (List.mem_map_of_mem Prod.fst (mLookup_mem hl))
    simp [mGet, hl, hc]

/-- Claim C7 (the only eviction path): in a reachable state of a cache of capacity `c ≥ 1`, a
`put(k, v)` removes another cached key only if `k` was not cached and `count = c`; in that case
exactly one key is removed and `count` stays `c`; and if `k` was not cached and `count < c`, no
key is removed and `count` grows by exactly 1. -/
theorem C7_only_eviction_path (c : Int) (ops : List Op) (k v : Int)
    (h1 : 1 ≤ c) (h2 : c ≤ 2147483647) :
    ∃ s s1, run c ops = some s ∧ put s k v = some s1 ∧
      (∀ j, j ≠ k → cached s j = true → cached s1 j = false →
        cached s k = false ∧ (count s : Int) = c) ∧
      (cached s k = false → (count s : Int) = c →
        (count s1 : Int) = c ∧
        ∃ e, cached s e = true ∧ cached s1 e = false ∧
          ∀ j, cached s j = true → cached s1 j = false → j = e) ∧
      (cached s k = false → (count s : Int) < c →
        count s1 = count s + 1 ∧ ∀ j, cached s j = true → cached s1 j = true) := by
  obtain ⟨s, hs, ha, hcap⟩ := abs_run c ops
  obtain ⟨s1, e1, a1, -⟩ := abs_put ha k v
  have hle := mRun_length_le h1 h2 ops
  have hnd := abs_nodup ha
  rw [hcap] at a1
  refine ⟨s, s1, hs, e1, ?_⟩
  rw [abs_count ha, abs_count a1]
  simp only [abs_cached ha, abs_cached a1, abs_cached_false ha, abs_cached_false a1]
  have hstep : mStep c (mRun c ops) (.put k v) = mPut c (mRun c ops) k v := rfl
  rcases mStep_cases c hnd (.put k v) with ⟨j, e, -, -⟩ |
    ⟨j, v0, A, B, ho, e, hk, w, e4, -, -⟩ | ⟨j, u, ho, hj, hne, e⟩ | ⟨j, u, ho, hj, heq, e⟩
  · cases e
  · have hjk : j = k := by
      rcases ho with h | ⟨u, h⟩ <;> cases h
      rfl
    subst hjk
    rw [hstep] at e4
    rw [e4, e]
    simp only [List.map_append, List.map_cons, List.mem_append, List.mem_cons] at *
    refine ⟨fun i hi hc hn => ?_, fun hc => ?_, fun hc => ?_⟩
    · exact absurd (by tauto) hn
    · exact absurd (Or.inr (Or.inl trivial)) hc
    · exact absurd (Or.inr (Or.inl trivial)) hc
  · cases ho
    rw [hstep] at e
    rw [e]
    rw [toInt32_of_le (by omega)] at hne
    simp only [List.map_cons, List.mem_cons, List.length_cons]
    refine ⟨fun i hi hc hn => ?_, fun hc hfull => absurd hfull hne, fun _ _ => ⟨trivial, ?_⟩⟩
    · exact absurd (Or.inr hc) hn
    · intro i hi
      exact Or.inr hi
  · cases ho
    rw [hstep] at e
    rw [e]
    rw [toInt32_of_le (by omega)] at heq
    rcases List.eq_nil_or_concat (mRun c ops) with hnil | ⟨D, x, hl⟩
    · rw [hnil] at heq
      simp only [List.length_nil, Nat.cast_zero] at heq
      omega
    rw [hl] at hnd heq hj ⊢
    simp only [List.concat_eq_append, List.dropLast_concat, List.map_cons, List.map_append,
      List.map_nil, List.mem_cons, List.mem_append, List.mem_singleton, List.length_cons,
      List.length_append, List.length_nil, not_or, List.not_mem_nil, or_false, not_false_eq_true,
      and_true] at hnd heq hj ⊢
    have hxD : x.1 ∉ D.map Prod.fst := by
      rw [List.nodup_append] at hnd
      exact fun h => hnd.2.2 h (by simp)
    refine ⟨fun i hi hc hn => ⟨hj, heq⟩, fun _ _ => ⟨heq, x.1, Or.inr rfl, ?_, ?_⟩,
      fun _ hlt => ?_⟩
    · exact ⟨fun h => hj.2 h.symm, hxD⟩
    · intro i hi hn
      tauto
    · omega

/-- Claim C7 at a concrete input: capacity 2, a full cache, then `put(3,30)`. -/
theorem C7_only_eviction_path_witness :
    (1 : Int) ≤ 2 ∧ (2 : Int) ≤ 2147483647 ∧
    ∃ s s1, run 2 [.put 1 10, .put 2 20, .get 1] = some s ∧ put s 3 30 = some s1 ∧
      (∀ j, j ≠ 3 → cached s j = true → cached s1 j = false →
        cached s 3 = false ∧ (count s : Int) = 2) ∧
      (cached s 3 = false → (count s : Int) = 2 →
        (count s1 : Int) = 2 ∧
        ∃ e, cached s e = true ∧ cached s1 e = false ∧
          ∀ j, cached s j = true → cached s1 j = false → j = e) ∧
      (cached s 3 = false → (count s : Int) < 2 →
        count s1 = count s + 1 ∧ ∀ j, cached s j = true → cached s1 j = true) :=
  ⟨by decide, by decide,
    C7_only_eviction_path 2 [.put 1 10, .put 2 20, .get 1] 3 30 (by decide) (by decide)⟩

/-- Claim C8 (re-put of a cached key): in a reachable state, `put(k, v)` of a cached key `k`
stores `v` for `k`, moves `k` to the front, keeps `count` and the set of cached keys (nothing
is evicted, whatever `count` is), and leaves the other pairs as they were, in the same order. -/
theorem C8_reput_cached (cap : Int) (ops : List Op) (k v : Int) (s : LRUCache)
    (hs : run cap ops = some s) (hc : cached s k = true) :
    ∃ s1 l, put s k v = some s1 ∧ debugPrint s = some l ∧
      debugPrint s1 = some ((k, v) :: l.filter fun e => decide (e.1 ≠ k)) ∧
      stored s1 k = some v ∧ frontKey s1 = some k ∧ count s1 = count s ∧
      (∀ j, cached s1 j = cached s j) ∧ (∀ j, j ≠ k → stored s1 j = stored s j) := by
  obtain ⟨s0, hs0, ha, -⟩ := abs_run cap ops
  rw [hs] at hs0
  obtain rfl : s = s0 := Option.some.inj hs0
  obtain ⟨s1, e1, a1, -⟩ := abs_put ha k v
  obtain ⟨v0, hv0⟩ := mLookup_isSome ((abs_cached ha k).1 hc)
  obtain ⟨A, B, hl, hrm, hA, hB⟩ := mLookup_some_split (abs_nodup ha) hv0
  have hput : mPut s.capacity (mRun cap ops) k v = (k, v) :: mRemove (mRun cap ops) k := by
    simp only [mPut, hv0]
  rw [hput] at a1
  refine ⟨s1, mRun cap ops, e1, abs_debugPrint ha, abs_debugPrint a1, ?_, abs_frontKey a1, ?_,
    fun j => ?_, fun j hj => ?_⟩
  · rw [abs_stored a1]
    simp [mLookup]
  · rw [abs_count a1, abs_count ha, hrm]
    rw [hl]
    simp only [List.length_cons, List.length_append]
    omega
  · apply cached_eq_of_mem_iff ha a1
    rw [hrm]
    rw [hl]
    simp only [List.map_cons, List.map_append, List.mem_cons, List.mem_append]
    tauto
  · rw [abs_stored a1, abs_stored ha]
    simp only [mLookup, if_neg (fun e : k = j => hj e.symm)]
    exact mLookup_mRemove _ hj

/-- Claim C8 at a concrete input: a full cache of capacity 2, then `put(2,99)` of a cached key. -/
theorem C8_reput_cached_witness :
    run 2 [.put 1 10, .put 2 20, .get 1] = some demoFull ∧ cached demoFull 2 = true ∧
    ∃ s1 l, put demoFull 2 99 = some s1 ∧ debugPrint demoFull = some l ∧
      debugPrint s1 = some ((2, 99) :: l.filter fun e => decide (e.1 ≠ 2)) ∧
      stored s1 2 = some 99 ∧ frontKey s1 = some 2 ∧ count s1 = count demoFull ∧
      (∀ j, cached s1 j = cached demoFull j) ∧
      (∀ j, j ≠ 2 → stored s1 j = stored demoFull j) :=
  ⟨rfl, rfl, C8_reput_cached 2 [.put 1 10, .put 2 20, .get 1] 2 99 demoFull rfl rfl⟩

/-- Claim C9 (`get` changes nothing but recency): in a reachable state `get(k)` keeps `count`,
the set of cached keys and the value stored for every key; and on a miss it returns the state
it was given, unchanged. -/
theorem C9_get_frame (cap : Int) (ops : List Op) (k : Int) :
    ∃ s r s1, run cap ops = some s ∧ get s k = some (r, s1) ∧ count s1 = count s ∧
      (∀ j, cached s1 j = cached s j) ∧ (∀ j, stored s1 j = stored s j) ∧
      (cached s k = false → s1 = s) := by
  obtain ⟨s, hs, ha, -⟩ := abs_run cap ops
  obtain ⟨s1, e1, a1, -, hcache⟩ := abs_get ha k
  refine ⟨s, _, s1, hs, e1, by simp [count, hcache], cached_congr hcache, fun j => ?_,
    fun hc => ?_⟩
  · rw [abs_stored a1, abs_stored ha, mLookup_mGet]
  · have hmiss : get s k = some (-1, s) := by
      obtain ⟨live, hr, hl⟩ := id ha
      apply rep_get_miss hr
      rw [← map_fst_kv, hl]
      exact (abs_cached_false ha k).1 hc
    rw [hmiss] at e1
    exact ((Prod.mk.inj (Option.some.inj e1)).2).symm

/-- Claim C10 (idempotent hit): in a reachable state with `k` cached, `get(k)` returns the stored
value `v`; a second `get(k)` right after it returns `v` again and leaves the state exactly as
the first one left it; and after any sequence of `get` calls `count` is unchanged and `get(k)`
still returns `v`, again without changing `count`. -/
theorem C10_idempotent_hit (cap : Int) (ops : List Op) (k : Int) (s : LRUCache)
    (hs : run cap ops = some s) (hc : cached s k = true) :
    ∃ v s1, stored s k = some v ∧ get s k = some (v, s1) ∧ get s1 k = some (v, s1) ∧
      ∀ gs : List Int, ∃ s2 s3, runFrom s (gs.map Op.get) = some s2 ∧ count s2 = count s ∧
        get s2 k = some (v, s3) ∧ count s3 = count s := by
  obtain ⟨s0, hs0, ha, -⟩ := abs_run cap ops
  rw [hs] at hs0
  obtain rfl : s = s0 := Option.some.inj hs0
  obtain ⟨v, hv⟩ := mLookup_isSome ((abs_cached ha k).1 hc)
  obtain ⟨s1, e1, a1, -⟩ := abs_get ha k
  have hg : mGet (mRun cap ops) k = (v, (k, v) :: mRemove (mRun cap ops) k) := by
    simp only [mGet, hv]
  rw [hg] at e1 a1
  refine ⟨v, s1, by rw [abs_stored ha, hv], e1, abs_get_front a1, fun gs => ?_⟩
  obtain ⟨s2, l2, e2, a2, c2, h2⟩ := abs_gets ha gs
  obtain ⟨s3, e3, -, -, c3⟩ := abs_get a2 k
  have hg2 : (mGet l2 k).1 = v := by
    simp only [mGet, h2 k, hv]
  rw [hg2] at e3
  exact ⟨s2, s3, e2, by simp [count, c2], e3, by simp [count, c3, c2]⟩

/-- Claim C10 at a concrete input: capacity 2 after `put(1,10)`, `put(2,20)`, reading key 1. -/
theorem C10_idempotent_hit_witness :
    run 2 [.put 1 10, .put 2 20] = some demoTwo ∧ cached demoTwo 1 = true ∧
    ∃ v s1, stored demoTwo 1 = some v ∧ get demoTwo 1 = some (v, s1) ∧
      get s1 1 = some (v, s1) ∧
      ∀ gs : List Int, ∃ s2 s3, runFrom demoTwo (gs.map Op.get) = some s2 ∧
        count s2 = count demoTwo ∧ get s2 1 = some (v, s3) ∧ count s3 = count demoTwo :=
  ⟨rfl, rfl, C10_idempotent_hit 2 [.put 1 10, .put 2 20] 1 demoTwo rfl rfl⟩

/-- Claim C11, as stated, fails: constructing a cache with capacity 0 reports no error and
yields a cache object (empty, with capacity 0). -/
theorem C11_counterexample :
    init 0 = some ⟨0, [], some 0, some 1,
      [some ⟨-1, -1, none, some 1⟩, some ⟨-1, -1, some 0, none⟩]⟩ := rfl

/-- Claim C11, amended: the constructor never rejects a capacity; for every integer `cap`,
below 1 or not, it yields an empty cache (`count = 0`, nothing between the sentinels) with that
capacity. -/
theorem C11_construction_accepts_any (cap : Int) :
    ∃ s, init cap = some s ∧ count s = 0 ∧ s.capacity = cap ∧ debugPrint s = some [] ∧
      ∀ k, cached s k = false := by
  obtain ⟨s, hs, ha, hc⟩ := abs_init cap
  refine ⟨s, hs, by rw [abs_count ha]; rfl, hc, abs_debugPrint ha, fun k => ?_⟩
  rw [abs_cached_false ha]
  simp

/-- Claim C12 (concrete scenario, capacity 2): `put(1,10)`, `put(2,20)` give the order [2,1];
`get(1)` returns 10 and the order becomes [1,2]; `put(3,30)` evicts key 2 and gives [3,1];
`get(2)` misses (returns -1); `put(4,40)` evicts key 1 and gives [4,3]; then `get(1)` misses,
`get(3)` returns 30 and `get(4)` returns 40. -/
theorem C12_concrete_scenario :
    ∃ s0 s1 s2 s3 s4 s5 s6 s7 s8 s9,
      init 2 = some s0 ∧ put s0 1 10 = some s1 ∧ put s1 2 20 = some s2 ∧
      debugPrint s2 = some [(2, 20), (1, 10)] ∧
      get s2 1 = some (10, s3) ∧ debugPrint s3 = some [(1, 10), (2, 20)] ∧
      put s3 3 30 = some s4 ∧ cached s3 2 = true ∧ cached s4 2 = false ∧
      debugPrint s4 = some [(3, 30), (1, 10)] ∧
      get s4 2 = some (-1, s5) ∧
      put s5 4 40 = some s6 ∧ cached s5 1 = true ∧ cached s6 1 = false ∧
      debugPrint s6 = some [(4, 40), (3, 30)] ∧
      get s6 1 = some (-1, s7) ∧ get s7 3 = some (30, s8) ∧ get s8 4 = some (40, s9) :=
  ⟨_, _, _, _, _, _, _, _, _, _, rfl, rfl, rfl, rfl, rfl, rfl, rfl, rfl, rfl, rfl, rfl, rfl, rfl,
    rfl, rfl, rfl, rfl, rfl⟩

/-- Claim C15 (list well-formedness): in every state reached from the constructor, the walk
along `next` from the head sentinel passes the live nodes, each once and `count` of them, and
reaches the tail sentinel after exactly `count + 1` steps; every node of the index is among
them; and for every node on the chain other than the tail, `n.next.prev == n`. -/
theorem C15_list_well_formed (cap : Int) (ops : List Op) :
    ∃ s live, run cap ops = some s ∧ liveNodes s = some live ∧ live.length = count s ∧
      ((s.head :: live.map fun c => some c.addr) ++ [s.tail]).Nodup ∧
      (∀ k p, mapFind s.cache k = some p → p ∈ live.map fun c => some c.addr) ∧
      follow s.heap (count s + 1) s.head = some s.tail ∧
      (∀ i, i ≤ count s → follow s.heap i s.head ≠ some s.tail) ∧
      (∀ i, i ≤ count s → ∃ a b, follow s.heap i s.head = some (some a) ∧
        getNext s.heap (some a) = some (some b) ∧ getPrev s.heap (some b) = some (some a)) := by
  obtain ⟨s, e, a, -⟩ := abs_run cap ops
  obtain ⟨live, hr, hl⟩ := id a
  have hlen : live.length = count s := hr.len.symm
  have hnd := hr.nodup_addr
  have hfol : ∀ i c, (headCell :: (live ++ [tailCell]))[i]? = some c →
      follow s.heap i s.head = some (some c.addr) := by
    intro i c hc
    have := seg_follow hr.seg hc
    rw [hr.head_eq]
    exact this
  have hget : ∀ i, i ≤ count s → ∃ c, (headCell :: (live ++ [tailCell]))[i]? = some c ∧
      c.addr ≠ 1 := by
    intro i hi
    have hlt : i < (headCell :: live).length := by simp; omega
    have hlt2 : i < (headCell :: (live ++ [tailCell])).length := by simp; omega
    refine ⟨(headCell :: live)[i], ?_, ?_⟩
    · rw [← List.cons_append, List.getElem?_append_left hlt, List.getElem?_eq_getElem hlt]
    · have hm : (headCell :: live)[i] ∈ headCell :: live := List.getElem_mem hlt
      intro h1
      rw [← List.cons_append, List.map_append, List.nodup_append] at hnd
      exact hnd.2.2 (List.mem_map_of_mem Cell.addr hm) (by simp [tailCell, h1])
  have hlast : (headCell :: (live ++ [tailCell]))[count s + 1]? = some tailCell := by
    rw [← hlen, List.getElem?_cons_succ, List.getElem?_append_right (le_refl _)]
    simp
  refine ⟨s, live, e, rep_liveNodes hr, hlen, ?_, ?_, ?_, ?_, ?_⟩
  · rw [hr.head_eq, hr.tail_eq]
    have hinj : Function.Injective (fun a : Nat => (some a : Ptr)) :=
      fun _ _ h => Option.some.inj h
    have := hnd.map hinj
    simpa [headCell, tailCell, List.map_map, Function.comp_def] using this
  · intro k p hf
    obtain ⟨c, hc, -, rfl⟩ := (hr.find k p).1 hf
    exact List.mem_map.mpr ⟨c, hc, rfl⟩
  · rw [hfol _ _ hlast, hr.tail_eq]
    rfl
  · intro i hi
    obtain ⟨c, hc, hne⟩ := hget i hi
    rw [hfol i c hc, hr.tail_eq]
    intro h1
    exact hne (Option.some.inj (Option.some.inj h1))
  · intro i hi
    obtain ⟨c, hc, -⟩ := hget i hi
    have hlt2 : i + 1 < (headCell :: (live ++ [tailCell])).length := by simp; omega
    obtain ⟨h1, h2⟩ := seg_links hr.seg hc (List.getElem?_eq_getElem hlt2)
    exact ⟨c.addr, _, hfol i c hc, h1, h2⟩

/-- Claim C16 (the victim exists when needed): in every state reached from the constructor,
`popTail` returns null exactly when there is no live node, and then changes nothing; otherwise
it returns the node right before the tail sentinel (`tail->prev`) and unlinks it, the other
nodes staying in place; and on a cache of capacity at least 1, whenever the guard of the
eviction block holds (`(int)cache.size() == capacity`), it returns a live node. -/
theorem C16_popTail_victim (cap : Int) (ops : List Op) :
    ∃ s live p h1, run cap ops = some s ∧ liveNodes s = some live ∧
      popTail s.heap s.head s.tail = some (p, h1) ∧
      (p = none ↔ live = []) ∧ (p = none → h1 = s.heap) ∧
      (∀ A x, live = A ++ [x] →
        p = some x.addr ∧ getPrev s.heap s.tail = some p ∧ chain h1 s.head s.tail = some A) ∧
      (1 ≤ cap → toInt32 (count s) = cap → ∃ c ∈ live, p = some c.addr) := by
  obtain ⟨s, e, a, hcap⟩ := abs_run cap ops
  obtain ⟨live, hr, hl⟩ := id a
  have hw := rep_wellLinked hr
  rcases List.eq_nil_or_concat live with rfl | ⟨A, x, rfl⟩
  · have hp := wellLinked_popTail_nil hw
    refine ⟨s, [], none, s.heap, e, rep_liveNodes hr, ?_, by simp, fun _ => rfl, ?_, ?_⟩
    · rw [hr.head_eq, hr.tail_eq]
      exact hp
    · intro A x h
      simp at h
    · intro h1 hfull
      have hc : count s = 0 := by rw [abs_count a, ← hl]; rfl
      rw [hc] at hfull
      simp only [toInt32] at hfull
      omega
  · have hw1 : WellLinked s.heap headCell tailCell (A ++ [x]) := by simpa using hw
    obtain ⟨h1, hp, w1, hprev⟩ := wellLinked_popTail hw1
    refine ⟨s, A ++ [x], some x.addr, h1, e, (by simpa using rep_liveNodes hr), ?_, (by simp),
      (fun h => by cases h), ?_, fun _ _ => ⟨x, by simp, rfl⟩⟩
    · rw [hr.head_eq, hr.tail_eq]
      exact hp
    · intro B y h
      obtain ⟨rfl, hxy⟩ := List.append_inj' h rfl
      have hy : y = x := by simpa using hxy.symm
      subst hy
      refine ⟨rfl, ?_, ?_⟩
      · rw [hr.tail_eq]
        exact hprev
      · rw [hr.head_eq, hr.tail_eq]
        exact wellLinked_chain w1

/-- Claim C17 (`moveToFront` is a pure reordering): on a well-formed list that holds the cells
`A ++ x :: B`, `moveToFront` of the node of `x` succeeds and leaves a well-formed list that holds
`x :: (A ++ B)`: the same nodes, `x` right after the head sentinel, the others in their old
order; the walk from head to tail sees exactly these lists; and when `x` was already the first
node (`A = []`) the heap after the call is the heap before it. -/
theorem C17_moveToFront_reorders (h : Heap) (hd tl x : Cell) (A B : List Cell)
    (hw : WellLinked h hd tl (A ++ x :: B)) :
    ∃ h1, moveToFront h (some hd.addr) (some x.addr) = some h1 ∧
      WellLinked h1 hd tl (x :: (A ++ B)) ∧
      chain h (some hd.addr) (some tl.addr) = some (A ++ x :: B) ∧
      chain h1 (some hd.addr) (some tl.addr) = some (x :: (A ++ B)) ∧
      getNext h1 (some hd.addr) = some (some x.addr) ∧
      (A = [] → h1 = h) := by
  obtain ⟨h1, e1, w1, -, hfront⟩ := wellLinked_moveToFront hw
  refine ⟨h1, e1, w1, wellLinked_chain hw, wellLinked_chain w1, ?_, hfront⟩
  have := w1.1
  simp only [List.cons_append, seg_cons, firstPtr_cons] at this
  simp [getNext, this.1]

/-- Claim C17 at a concrete input: the list [1:10, 2:20] of `demoFull`, moving the node of
key 2 (address 3) to the front. -/
theorem C17_moveToFront_reorders_witness :
    WellLinked demoFull.heap headCell tailCell ([⟨2, 1, 10⟩] ++ ⟨3, 2, 20⟩ :: []) ∧
    ∃ h1, moveToFront demoFull.heap (some headCell.addr) (some 3) = some h1 ∧
      WellLinked h1 headCell tailCell (⟨3, 2, 20⟩ :: ([⟨2, 1, 10⟩] ++ [])) ∧
      chain demoFull.heap (some headCell.addr) (some tailCell.addr)
        = some ([⟨2, 1, 10⟩] ++ ⟨3, 2, 20⟩ :: []) ∧
      chain h1 (some headCell.addr) (some tailCell.addr)
        = some (⟨3, 2, 20⟩ :: ([⟨2, 1, 10⟩] ++ [])) ∧
      getNext h1 (some headCell.addr) = some (some 3) ∧
      ([⟨2, 1, 10⟩] = ([] : List Cell) → h1 = demoFull.heap) :=
  have hw : WellLinked demoFull.heap headCell tailCell ([⟨2, 1, 10⟩] ++ ⟨3, 2, 20⟩ :: []) :=
    ⟨⟨rfl, rfl, rfl, rfl, trivial⟩, by decide⟩
  ⟨hw, C17_moveToFront_reorders demoFull.heap headCell tailCell ⟨3, 2, 20⟩ [⟨2, 1, 10⟩] [] hw⟩

/-- Claim C18 (refinement to a list model): for every capacity `c ≥ 1` and every sequence of
calls, the pointer-based cache runs to completion, every call returns what the reference model
returns (`get` its value or -1, `put` nothing), the list walked from head to tail equals the
model list, and that list holds no key twice. -/
theorem C18_refines_list_model (c : Int) (ops : List Op) (h1 : 1 ≤ c) (h2 : c ≤ 2147483647) :
    ∃ s0 rs s, init c = some s0 ∧ runTrace s0 ops = some (rs, s) ∧
      rs = (specTrace c [] ops).1 ∧ debugPrint s = some (specTrace c [] ops).2 ∧
      ((specTrace c [] ops).2.map Prod.fst).Nodup := by
  obtain ⟨s0, e0, a0, c0⟩ := abs_init c
  obtain ⟨rs, s, e, hrs, a⟩ := abs_trace h1 h2 ops s0 [] a0 c0 (by simp; omega)
  exact ⟨s0, rs, s, e0, e, hrs, abs_debugPrint a, abs_nodup a⟩

/-- Claim C18 at a concrete input: capacity 2 and the calls of the demo. -/
theorem C18_refines_list_model_witness :
    (1 : Int) ≤ 2 ∧ (2 : Int) ≤ 2147483647 ∧
    ∃ s0 rs s, init 2 = some s0 ∧
      runTrace s0 [.put 1 10, .put 2 20, .get 1, .put 3 30, .get 2] = some (rs, s) ∧
      rs = (specTrace 2 [] [.put 1 10, .put 2 20, .get 1, .put 3 30, .get 2]).1 ∧
      debugPrint s = some (specTrace 2 [] [.put 1 10, .put 2 20, .get 1, .put 3 30, .get 2]).2 ∧
      ((specTrace 2 [] [.put 1 10, .put 2 20, .get 1, .put 3 30, .get 2]).2.map Prod.fst).Nodup :=
  ⟨by decide, by decide,
    C18_refines_list_model 2 [.put 1 10, .put 2 20, .get 1, .put 3 30, .get 2]
      (by decide) (by decide)⟩

/-- Claim C19, as stated, fails: on a cache of capacity `INT_MIN`, after `put` of the 2^31 keys
-1, 0, ..., 2^31 - 2 the size converts to `INT_MIN`, so the `put` of the next new key, 2^31 - 1,
evicts key -1; of the 2^31 + 1 distinct keys that were put only 2^31 are cached. -/
theorem C19_counterexample :
    ∃ s, run (-2147483648) (fillOps 2147483649) = some s ∧ cached s (-1) = false ∧
      count s = 2147483648 ∧ (-1 : Int) ∈ putKeys (fillOps 2147483649) := by
  apply fill_overflow (-2147483648) 2147483647 2147483648 2147483649 (by norm_num) (by norm_num)
  · intro m hm
    rw [toInt32_of_le (by omega)]
    omega
  · unfold toInt32
    norm_num


/-- Claim C19, amended: on a cache of capacity at most 0, as long as fewer than 2^31 distinct
keys have been put, no `put` evicts: every history runs to a state whose `count` is the number
of distinct keys put (above the capacity as soon as there was a `put`), and every key that was
put is cached and `get` returns the value of its last `put`. -/
theorem C19_nonpositive_capacity (cap : Int) (ops : List Op) (hc : cap ≤ 0)
    (hn : ((putKeys ops).dedup.length : Int) < 2147483648) :
    ∃ s, run cap ops = some s ∧ count s = (putKeys ops).dedup.length ∧
      (putKeys ops ≠ [] → cap < (count s : Int)) ∧
      ∀ k ∈ putKeys ops, cached s k = true ∧
        ∃ v s1, lastPut ops k = some v ∧ get s k = some (v, s1) := by
  obtain ⟨s, hs, ha, -⟩ := abs_run cap ops
  have hkeys := mRun_keys_nonpos hc ops hn
  have hcount : count s = (putKeys ops).dedup.length := by
    rw [abs_count ha]
    exact length_eq_dedup (abs_nodup ha) hkeys
  refine ⟨s, hs, hcount, fun hne => ?_, fun k hk => ?_⟩
  · rw [hcount]
    have : (putKeys ops).dedup ≠ [] := by
      intro h
      apply hne
      apply List.eq_nil_iff_forall_not_mem.mpr
      intro x hx
      have := List.mem_dedup.mpr hx
      rw [h] at this
      simp at this
    have hpos : 0 < (putKeys ops).dedup.length := List.length_pos.mpr this
    omega
  · have hkl := (hkeys k).2 hk
    obtain ⟨v, hv⟩ := mLookup_isSome hkl
    obtain ⟨s1, e1, -⟩ := abs_get ha k
    refine ⟨(abs_cached ha k).2 hkl, v, s1, lastPut_run cap ops (k, v) (mLookup_mem hv), ?_⟩
    rw [e1]
    simp [mGet, hv]

/-- Claim C19 at a concrete input: capacity 0 and three `put` calls of two distinct keys. -/
theorem C19_nonpositive_capacity_witness :
    (0 : Int) ≤ 0 ∧ ((putKeys [.put 1 10, .put 2 20, .put 1 11]).dedup.length : Int) < 2147483648 ∧
    ∃ s, run 0 [.put 1 10, .put 2 20, .put 1 11] = some s ∧
      count s = (putKeys [.put 1 10, .put 2 20, .put 1 11]).dedup.length ∧
      (putKeys [.put 1 10, .put 2 20, .put 1 11] ≠ [] → 0 < (count s : Int)) ∧
      ∀ k ∈ putKeys [.put 1 10, .put 2 20, .put 1 11], cached s k = true ∧
        ∃ v s1, lastPut [.put 1 10, .put 2 20, .put 1 11] k = some v ∧ get s k = some (v, s1) :=
  ⟨by decide, by decide,
    C19_nonpositive_capacity 0 [.put 1 10, .put 2 20, .put 1 11] (by decide) (by decide)⟩

end LRU

namespace Bloom

/-! ## The Bloom filter -/

theorem toSizeT_natCast {n : Nat} (h : n < 18446744073709551616) : toSizeT (n : Int) = n := by
  unfold toSizeT
  omega

theorem good_hash (H : String → Nat) {bf : BloomFilter} (hg : Good bf) (item : String)
    (i : Int) : hash H bf item i = some (pos H bf item i) := by
  obtain ⟨h1, h2, -⟩ := hg
  have hs : toSizeT bf.size = bf.size.toNat := by
    unfold toSizeT
    omega
  have hne : ¬ bf.size.toNat = 0 := by omega
  simp [hash, hs, hne, pos]

theorem pos_lt (H : String → Nat) {bf : BloomFilter} (hg : Good bf) (item : String) (i : Int) :
    pos H bf item i < bf.bitArray.length := by
  obtain ⟨h1, h2, h3⟩ := hg
  rw [h3]
  exact Nat.mod_lt _ (by omega)

theorem good_index (H : String → Nat) {bf : BloomFilter} (hg : Good bf) (item : String)
    (i : Int) : toSizeT (LRU.toInt32 (pos H bf item i)) = pos H bf item i := by
  have hlt := pos_lt H hg item i
  obtain ⟨h1, h2, h3⟩ := hg
  have hle : ((pos H bf item i : Nat) : Int) ≤ 2147483647 := by omega
  rw [LRU.toInt32_of_le hle]
  exact toSizeT_natCast (by omega)

theorem insertFrom_spec (H : String → Nat) (item : String) (n : Nat) :
    ∀ (i : Int) (bf : BloomFilter), Good bf →
      ∃ bf1, insertFrom H item n i bf = some bf1 ∧ Good bf1 ∧ bf1.size = bf.size ∧
        bf1.k = bf.k ∧
        (∀ j, bf.bitArray.get? j = some true → bf1.bitArray.get? j = some true) ∧
        ∀ t : Nat, t < n → bf1.bitArray.get? (pos H bf item (i + t)) = some true := by
  induction n with
  | zero =>
    intro i bf hg
    exact ⟨bf, rfl, hg, rfl, rfl, fun _ h => h, fun t ht => absurd ht (Nat.not_lt_zero t)⟩
  | succ n ih =>
    intro i bf hg
    have hlt := pos_lt H hg item i
    have hg1 : Good { bf with bitArray := bf.bitArray.set (pos H bf item i) true } := by
      obtain ⟨h1, h2, h3⟩ := hg
      exact ⟨h1, h2, by simpa using h3⟩
    obtain ⟨bf1, e1, g1, s1, k1, m1, p1⟩ := ih (i + 1) _ hg1
    have hpos : ∀ j : Int, pos H { bf with bitArray := bf.bitArray.set (pos H bf item i) true }
        item j = pos H bf item j := fun _ => rfl
    refine ⟨bf1, ?_, g1, s1, k1, fun j hj => m1 j ?_, fun t ht => ?_⟩
    · simp only [insertFrom, good_hash H hg, setBit, good_index H hg, hlt, if_true,
        Option.bind_eq_bind, Option.some_bind]
      exact e1
    · simp only [List.get?_eq_getElem?, List.getElem?_set] at hj ⊢
      by_cases h : pos H bf item i = j
      · subst h
        simp [hlt]
      · simpa [h] using hj
    · cases t with
      | zero =>
        apply m1
        simp [List.get?_eq_getElem?, hlt]
      | succ t =>
        have := p1 t (by omega)
        rw [hpos] at this
        have e : i + ((t + 1 : Nat) : Int) = i + 1 + (t : Int) := by push_cast; ring
        rw [e]
        exact this

theorem containsFrom_true (H : String → Nat) {bf : BloomFilter} (hg : Good bf) (item : String)
    (n : Nat) : ∀ i : Int,
      (∀ t : Nat, t < n → bf.bitArray.get? (pos H bf item (i + t)) = some true) →
      containsFrom H bf item n i = some true := by
  induction n with
  | zero =>
    intro i _
    rfl
  | succ n ih =>
    intro i h
    have h0 := h 0 (Nat.succ_pos n)
    simp only [Nat.cast_zero, add_zero] at h0
    have hrest : ∀ t : Nat, t < n → bf.bitArray.get? (pos H bf item (i + 1 + t)) = some true := by
      intro t ht
      have := h (t + 1) (by omega)
      have e : i + ((t + 1 : Nat) : Int) = i + 1 + (t : Int) := by push_cast; ring
      rw [e] at this
      exact this
    simp only [containsFrom, good_hash H hg, getBit, good_index H hg, h0,
      Option.bind_eq_bind, Option.some_bind, if_true]
    exact ih (i + 1) hrest

theorem insert_spec (H : String → Nat) {bf : BloomFilter} (hg : Good bf) (item : String) :
    ∃ bf1, insert H bf item = some bf1 ∧ Good bf1 ∧ bf1.size = bf.size ∧ bf1.k = bf.k ∧
      (∀ j, bf.bitArray.get? j = some true → bf1.bitArray.get? j = some true) ∧
      possiblyContains H bf1 item = some true := by
  obtain ⟨bf1, e1, g1, s1, k1, m1, p1⟩ := insertFrom_spec H item bf.k.toNat 0 bf hg
  refine ⟨bf1, e1, g1, s1, k1, m1, ?_⟩
  unfold possiblyContains
  rw [k1]
  apply containsFrom_true H g1
  intro t ht
  have := p1 t ht
  simpa [pos, s1] using this

/-- Bits only ever get set: what `possiblyContains` accepted it accepts after more inserts. -/
theorem contains_mono (H : String → Nat) {bf bf1 : BloomFilter} (hg : Good bf) (hg1 : Good bf1)
    (hs : bf1.size = bf.size)
    (hm : ∀ j, bf.bitArray.get? j = some true → bf1.bitArray.get? j = some true)
    (item : String) (n : Nat) : ∀ i : Int,
      containsFrom H bf item n i = some true → containsFrom H bf1 item n i = some true := by
  induction n with
  | zero =>
    intro i _
    rfl
  | succ n ih =>
    intro i h
    have hp : pos H bf1 item i = pos H bf item i := by simp [pos, hs]
    simp only [containsFrom, good_hash H hg, getBit, good_index H hg,
      Option.bind_eq_bind, Option.some_bind] at h
    have hlt := pos_lt H hg item i
    have hb : bf.bitArray.get? (pos H bf item i) = some true := by
      cases hb : bf.bitArray.get? (pos H bf item i) with
      | none => rw [hb] at h; simp at h
      | some b =>
        cases b with
        | true => rfl
        | false => rw [hb] at h; simp at h
    rw [hb] at h
    simp only [Option.some_bind, if_true] at h
    simp only [containsFrom, good_hash H hg1, getBit, hp, good_index H hg, hm _ hb,
      Option.bind_eq_bind, Option.some_bind, if_true]
    exact ih (i + 1) h

theorem insertAll_spec (H : String → Nat) (items : List String) :
    ∀ bf : BloomFilter, Good bf →
      ∃ bf1, insertAll H bf items = some bf1 ∧ Good bf1 ∧ bf1.size = bf.size ∧ bf1.k = bf.k ∧
        (∀ j, bf.bitArray.get? j = some true → bf1.bitArray.get? j = some true) ∧
        ∀ x ∈ items, possiblyContains H bf1 x = some true := by
  induction items with
  | nil =>
    intro bf hg
    exact ⟨bf, rfl, hg, rfl, rfl, fun _ h => h, fun x hx => absurd hx (List.not_mem_nil x)⟩
  | cons y ys ih =>
    intro bf hg
    obtain ⟨bf1, e1, g1, s1, k1, m1, c1⟩ := insert_spec H hg y
    obtain ⟨bf2, e2, g2, s2, k2, m2, c2⟩ := ih bf1 g1
    refine ⟨bf2, by simp [insertAll, e1, e2], g2, s2.trans s1, k2.trans k1,
      fun j hj => m2 j (m1 j hj), fun x hx => ?_⟩
    rcases List.mem_cons.mp hx with rfl | hx
    · unfold possiblyContains at c1 ⊢
      rw [k2]
      exact contains_mono H g1 g2 s2 m2 x _ 0 c1
    · exact c2 x hx

theorem good_init {m : Int} (k : Int) (h1 : 1 ≤ m) (h2 : m ≤ 2147483647) :
    ∃ bf, init m k = some bf ∧ Good bf ∧ bf.k = k ∧ bf.size = m ∧
      bf.bitArray = List.replicate m.toNat false := by
  have : ¬ m < 0 := by omega
  exact ⟨⟨List.replicate m.toNat false, m, k⟩, by simp [init, this], ⟨h1, h2, by simp⟩, rfl, rfl,
    rfl⟩

/-- Claim C13 (no false negatives): for a filter constructed with `m ≥ 1` bits and any number `k`
of hash functions, for every string hash `H` and every sequence of `insert` calls that contains
`insert(x)`, all the calls succeed and `possiblyContains(x)` returns true afterwards. -/
theorem C13_no_false_negatives (H : String → Nat) (m k : Int) (items : List String)
    (x : String) (h1 : 1 ≤ m) (h2 : m ≤ 2147483647) (hx : x ∈ items) :
    ∃ bf0 bf, init m k = some bf0 ∧ insertAll H bf0 items = some bf ∧
      possiblyContains H bf x = some true := by
  obtain ⟨bf0, e0, g0, -⟩ := good_init k h1 h2
  obtain ⟨bf, e, -, -, -, -, c⟩ := insertAll_spec H items bf0 g0
  exact ⟨bf0, bf, e0, e, c x hx⟩

/-- Claim C13 at a concrete input: the filter of the demo, 20 bits and 3 hash functions. -/
theorem C13_no_false_negatives_witness :
    (1 : Int) ≤ 20 ∧ (20 : Int) ≤ 2147483647 ∧ "apple" ∈ ["apple", "banana", "cherry"] ∧
    ∃ bf0 bf, init 20 3 = some bf0 ∧
      insertAll lengthHash bf0 ["apple", "banana", "cherry"] = some bf ∧
      possiblyContains lengthHash bf "apple" = some true :=
  ⟨by decide, by decide, List.mem_cons_self _ _,
    C13_no_false_negatives lengthHash 20 3 ["apple", "banana", "cherry"] "apple"
      (by decide) (by decide) (List.mem_cons_self _ _)⟩

/-- Claim C20 (an empty filter contains nothing): a filter newly constructed with `m ≥ 1` bits
and `k ≥ 1` hash functions answers false to `possiblyContains(x)` for every `x`; and a filter
with `k ≤ 0`, whatever its bits, answers true for every item. -/
theorem C20_empty_filter (H : String → Nat) (m k : Int) (x : String) (h1 : 1 ≤ m)
    (h2 : m ≤ 2147483647) (hk : 1 ≤ k) :
    (∃ bf0, init m k = some bf0 ∧ possiblyContains H bf0 x = some false) ∧
      ∀ (bf : BloomFilter) (y : String), bf.k ≤ 0 → possiblyContains H bf y = some true := by
  constructor
  · obtain ⟨bf0, e0, g0, k0, s0, b0⟩ := good_init k h1 h2
    refine ⟨bf0, e0, ?_⟩
    obtain ⟨n, hn⟩ : ∃ n, bf0.k.toNat = n + 1 := ⟨k.toNat - 1, by rw [k0]; omega⟩
    have hlt := pos_lt H g0 x 0
    have hbit : bf0.bitArray.get? (pos H bf0 x 0) = some false := by
      rw [b0] at hlt ⊢
      simp only [List.length_replicate] at hlt
      simp [List.get?_eq_getElem?, hlt]
    simp only [possiblyContains, hn, containsFrom, good_hash H g0, getBit, good_index H g0, hbit,
      Option.bind_eq_bind, Option.some_bind]
    rfl
  · intro bf y hk0
    have : bf.k.toNat = 0 := by omega
    simp [possiblyContains, this, containsFrom]

/-- Claim C20 at a concrete input: the filter of the demo before any insert. -/
theorem C20_empty_filter_witness :
    (1 : Int) ≤ 20 ∧ (20 : Int) ≤ 2147483647 ∧ (1 : Int) ≤ 3 ∧
    (∃ bf0, init 20 3 = some bf0 ∧ possiblyContains lengthHash bf0 "mango" = some false) ∧
      ∀ (bf : BloomFilter) (y : String), bf.k ≤ 0 →
        possiblyContains lengthHash bf y = some true :=
  ⟨by decide, by decide, by decide,
    C20_empty_filter lengthHash 20 3 "mango" (by decide) (by decide) (by decide)⟩

end Bloom
